import Mathlib

/-
Verification of the HRF (hemodynamic response function) deconvolution tool
in `hrf.py`.  The code is shallowly embedded over exact rationals:
Python floats become `ℚ`, the NumPy rounding primitives (`np.round`,
`round`, `np.floor`, `np.fix`, `np.mod`, `np.arange`, `np.unique`) become
explicit functions on `ℚ`, and the one place where IEEE special values are
observable (the unguarded division by design-matrix column sums in the
averaging estimator) is modelled with an explicit type `F` carrying
not-a-number and signed infinities.  The Moore-Penrose pseudo-inverse
(`np.linalg.pinv`, an external library routine) is modelled as an abstract
matrix-valued parameter.
-/

set_option maxHeartbeats 1000000

namespace Hrfv

/-- Round half to even, the rounding used by the Python builtin `round`
and by `np.round` (idealised over exact rationals). -/
def roundHalfEven (x : ℚ) : ℤ :=
  let f := ⌊x⌋
  let r := x - (f : ℚ)
  if r < 1/2 then f
  else if 1/2 < r then f + 1
  else if f % 2 = 0 then f else f + 1

/-- Truncation toward zero, the semantics of `np.fix`. -/
def qfix (x : ℚ) : ℤ := if 0 ≤ x then ⌊x⌋ else ⌈x⌉

/-- The source expression `np.round(x * 1e4) / 1e4` (snap to the 0.1 ms grid). -/
def round4 (x : ℚ) : ℚ := (roundHalfEven (x * 10000) : ℚ) / 10000

/-- The source expression `np.fix(x * 1e4) / 1e4` (truncate to the 0.1 ms grid). -/
def fix4 (x : ℚ) : ℚ := (qfix (x * 10000) : ℚ) / 10000

/-- Floored modulo, the semantics of `np.mod` for a nonzero modulus.  For a
zero modulus `np.mod` yields NaN, whose truthiness in the source guard
agrees with that of the first argument whenever the first argument is
nonzero (the only situation the claims consider, since `TR > 0`). -/
def qmod (a b : ℚ) : ℚ := if b = 0 then a else a - b * (⌊a / b⌋ : ℚ)

/-- The semantics of `np.arange start stop step`: the values
`start + i * step` for `i = 0, 1, ...`, of length `⌈(stop - start)/step⌉`
clamped below at zero. -/
def arangeQ (start stop step : ℚ) : List ℚ :=
  if step = 0 then []
  else (List.range (⌈(stop - start) / step⌉).toNat).map fun i : ℕ => start + (i : ℚ) * step

/-- Index of the first occurrence of `code` in a list (the semantics of the
indices returned by `np.unique(..., return_index=True)`). -/
def idxOfInt (code : ℤ) : List ℤ → ℕ
  | [] => 0
  | x :: xs => if x = code then 0 else idxOfInt code xs + 1

/-- The semantics of `np.unique`: the distinct values, sorted ascending. -/
def uniqueSorted (l : List ℤ) : List ℤ := List.insertionSort (· ≤ ·) l.dedup

/-- The distinct values of a list in order of first appearance (used to state
the ordering claim about condition records). -/
def firstAppearance (l : List ℤ) : List ℤ :=
  l.foldl (fun acc x => if x ∈ acc then acc else acc ++ [x]) []

/-- The already-parsed event table: parallel columns of onset times,
condition codes, and labels (`cond['f0']`, `cond['f1']` and the label
column read by the constructor). -/
structure EventTable where
  timing : List ℚ
  number : List ℤ
  labels : List String
deriving DecidableEq

/-- The state built by `HrfRetrieval.__init__`: timecourse geometry, the
event table columns it keeps, the discovered conditions, and the
peristimulus grid. -/
structure Hrf where
  ntps : ℕ
  event_timing : List ℚ
  event_number : List ℤ
  nconds : ℕ
  c_labels : List String
  c_codes : List ℤ
  Tstart : ℚ
  Tend : ℚ
  TR : ℚ
  ER : ℚ
  nHEst : ℤ
  nPreStim : ℤ
  tscale : List ℚ
deriving DecidableEq

/-- The ER-correction logic of `HrfRetrieval.__init__` (lines 102-111).  If
`ER` is absent or equals `TR` keep `TR`; else if `np.mod(TR, ER)` is
truthy, replace `ER` by `TR / round(TR/ER)` -- which in Python raises
`ZeroDivisionError` when `round(TR/ER) = 0`; else keep `ER`. -/
def corrER (TR : ℚ) (er : Option ℚ) : Except String ℚ :=
  match er with
  | none => Except.ok TR
  | some e =>
    if e = TR then Except.ok TR
    else if qmod TR e ≠ 0 then
      if roundHalfEven (TR / e) = 0 then Except.error "ZeroDivisionError"
      else Except.ok (TR / ((roundHalfEven (TR / e) : ℤ) : ℚ))
    else Except.ok e

/-- The remainder of `HrfRetrieval.__init__` once the final `ER` is known:
condition discovery (`np.unique` with first-occurrence labels), window
magnitudes, grid sizes and the peristimulus time scale. -/
def mkGrid (ntps : ℕ) (tbl : EventTable) (TR ER w0 w1 : ℚ) : Hrf :=
  { ntps := ntps
    event_timing := tbl.timing
    event_number := tbl.number
    nconds := (uniqueSorted tbl.number).length
    c_labels := (uniqueSorted tbl.number).map fun code =>
      tbl.labels.getD (idxOfInt code tbl.number) ""
    c_codes := uniqueSorted tbl.number
    Tstart := |w0|
    Tend := |w1|
    TR := TR
    ER := ER
    nHEst := roundHalfEven (|w0| / ER) + roundHalfEven (|w1| / ER)
    nPreStim := ⌊|w0| / ER⌋
    tscale := arangeQ ((-(⌊|w0| / ER⌋ : ℚ) + 1) * ER)
      ((((roundHalfEven (|w0| / ER) + roundHalfEven (|w1| / ER) : ℤ) : ℚ) -
        ((⌊|w0| / ER⌋ : ℤ) : ℚ) + 1) * ER) ER }

/-- `HrfRetrieval.__init__`: ER correction followed by grid construction. -/
def mkHrf (ntps : ℕ) (tbl : EventTable) (TR : ℚ) (er : Option ℚ) (w0 w1 : ℚ) :
    Except String Hrf :=
  (corrER TR er).map fun ER => mkGrid ntps tbl TR ER w0 w1

/-- Onsets of the events whose condition code is `c_codes[c]`, in table
order (the boolean-mask selection in `getFIRmodel`). -/
def condOnsets (H : Hrf) (c : ℕ) : List ℚ :=
  ((H.event_timing.zip H.event_number).filter
    fun p => p.2 == H.c_codes.getD c 0).map Prod.fst

/-- `rounded_onsets = np.round(onsets / ER) * ER` (snap onsets to the ER grid). -/
def roundedOnsets (H : Hrf) (c : ℕ) : List ℚ :=
  (condOnsets H c).map fun o => (roundHalfEven (o / H.ER) : ℚ) * H.ER

/-- `trScale = np.fix(np.arange(0, ntps*TR, TR) * 1e4) / 1e4`, the
acquisition time scale at 0.1 ms resolution. -/
def trScaleL (H : Hrf) : List ℚ :=
  (arangeQ 0 ((H.ntps : ℚ) * H.TR) H.TR).map fix4

/-- The target time `np.round((ro + (k - nPreStim) * ER) * 1e4) / 1e4` for a
snapped onset `ro` and lag index `k`. -/
def targetT (H : Hrf) (ro : ℚ) (k : ℕ) : ℚ :=
  round4 (ro + (((k : ℤ) : ℚ) - ((H.nPreStim : ℤ) : ℚ)) * H.ER)

/-- One masked assignment `trE[trScale == target, col] = 1`. -/
def setRows (ts : List ℚ) (target : ℚ) (col : ℕ) (M : ℕ → ℕ → ℚ) : ℕ → ℕ → ℚ :=
  fun t k => if k = col ∧ t < ts.length ∧ ts.getD t 0 = target then 1 else M t k

/-- The inner loop of `getFIRmodel` over a list of column indices. -/
def colsFold (ts : List ℚ) (tgt : ℕ → ℚ) (cols : List ℕ) (M : ℕ → ℕ → ℚ) :
    ℕ → ℕ → ℚ :=
  cols.foldl (fun Mm c => setRows ts (tgt c) c Mm) M

/-- The loop body for one trial: assign every lag column of that trial. -/
def trialFold (H : Hrf) (ro : ℚ) (M : ℕ → ℕ → ℚ) : ℕ → ℕ → ℚ :=
  colsFold (trScaleL H) (targetT H ro) (List.range H.nHEst.toNat) M

/-- The per-condition design matrix `trE` built by `getFIRmodel`: start from
zeros and run the trial/lag loops. -/
def trE (H : Hrf) (c : ℕ) : ℕ → ℕ → ℚ :=
  (roundedOnsets H c).foldl (fun Mm ro => trialFold H ro Mm) (fun _ _ => 0)

/-- The 3-D tensor `self.model` (time, lag, condition): zero-initialised and
filled with each conditions `trE` for `c < nconds`. -/
def modelOf (H : Hrf) : ℕ → ℕ → ℕ → ℚ :=
  fun t k c => if c < H.nconds then trE H c t k else 0

/-- Scalar type for the averaging path: exact rationals extended with the
IEEE special values (NaN, signed infinity) produced by unguarded division.
Signed zeros are not modelled; they are unobservable in the claims. -/
inductive F where
  | fin : ℚ → F
  | nan : F
  | inf : Bool → F
deriving DecidableEq

/-- IEEE addition on `F` (finite values exact). -/
def F.add : F → F → F
  | F.nan, _ => F.nan
  | _, F.nan => F.nan
  | F.fin a, F.fin b => F.fin (a + b)
  | F.inf s, F.fin _ => F.inf s
  | F.fin _, F.inf s => F.inf s
  | F.inf s, F.inf t => if s = t then F.inf s else F.nan

/-- IEEE subtraction on `F` (finite values exact). -/
def F.sub : F → F → F
  | F.nan, _ => F.nan
  | _, F.nan => F.nan
  | F.fin a, F.fin b => F.fin (a - b)
  | F.inf s, F.fin _ => F.inf s
  | F.fin _, F.inf s => F.inf !s
  | F.inf s, F.inf t => if s = t then F.nan else F.inf s

/-- IEEE division on `F`: `0/0` is NaN, nonzero over zero is a signed
infinity, finite over infinite is zero. -/
def F.div : F → F → F
  | F.nan, _ => F.nan
  | _, F.nan => F.nan
  | F.fin a, F.fin b =>
    if b = 0 then (if a = 0 then F.nan else F.inf (decide (0 < a))) else F.fin (a / b)
  | F.inf s, F.fin b => if 0 ≤ b then F.inf s else F.inf !s
  | F.fin _, F.inf _ => F.fin 0
  | F.inf _, F.inf _ => F.nan

/-- Summation on `F` (left fold of IEEE addition over a zero accumulator,
the semantics of `np.sum` / the summation half of `np.mean`). -/
def Fsum (l : List F) : F := l.foldl F.add (F.fin 0)

/-- The full estimator state: the constructed grid, the timecourse (1-D or
2-D according to `tcDim`), the design tensor `self.model`, the `self.metric`
attribute, and the per-condition estimate slots of the `cond` records. -/
structure EState where
  H : Hrf
  tcDim : ℕ
  tc1 : ℕ → ℚ
  nv : ℕ
  tc2 : ℕ → ℕ → ℚ
  model : ℕ → ℕ → ℕ → ℚ
  metric : Option String
  fir1 : ℕ → Option (ℕ → ℚ)
  fir2 : ℕ → Option (ℕ → ℕ → ℚ)
  avg1 : ℕ → Option (ℕ → F)
  avg2 : ℕ → Option (ℕ → ℕ → F)

/-- Fresh estimator state: no metric recorded, no estimates populated, the
design tensor not yet built. -/
def mkEState (H : Hrf) (tcDim : ℕ) (tc1 : ℕ → ℚ) (nv : ℕ) (tc2 : ℕ → ℕ → ℚ) :
    EState :=
  { H := H, tcDim := tcDim, tc1 := tc1, nv := nv, tc2 := tc2,
    model := fun _ _ _ => 0, metric := none,
    fir1 := fun _ => none, fir2 := fun _ => none,
    avg1 := fun _ => none, avg2 := fun _ => none }

/-- `getFIRmodel`: populate `self.model` (and the per-condition matrices)
from the grid and the event table. -/
def getFIRmodelS (st : EState) : EState := { st with model := modelOf st.H }

/-- Number of lag columns per condition (`nHEst` as a natural number). -/
def nHn (H : Hrf) : ℕ := H.nHEst.toNat

/-- `self.model.reshape(ntps, -1, order='F')`: Fortran-order reshape, so
output column `j` is lag `j % nHEst` of condition `j / nHEst`. -/
def reshapeF (st : EState) (t j : ℕ) : ℚ := st.model t (j % nHn st.H) (j / nHn st.H)

/-- `model.mean(axis=0)`: the per-column mean over time. -/
def colMean (st : EState) (j : ℕ) : ℚ :=
  (∑ t in Finset.range st.H.ntps, reshapeF st t j) / (st.H.ntps : ℚ)

/-- The augmented design matrix: demeaned columns with a final column of
ones (`demean_model_plus_intercept`); the intercept column has index
`nHEst * nconds`. -/
def designX (st : EState) (t j : ℕ) : ℚ :=
  if j = nHn st.H * st.H.nconds then 1 else reshapeF st t j - colMean st j

/-- `b_est = pinv(design).dot(tc.T)` for a 2-D timecourse, with
`np.linalg.pinv` abstracted as `pf`. -/
def beta2 (pf : (ℕ → ℕ → ℚ) → ℕ → ℕ → ℚ) (st : EState) (j v : ℕ) : ℚ :=
  ∑ t in Finset.range st.H.ntps, pf (designX st) j t * st.tc2 v t

/-- `b_est = pinv(design).dot(tc)` for a 1-D timecourse. -/
def beta1 (pf : (ℕ → ℕ → ℚ) → ℕ → ℕ → ℚ) (st : EState) (j : ℕ) : ℚ :=
  ∑ t in Finset.range st.H.ntps, pf (designX st) j t * st.tc1 t

/-- `model.sum(axis=0)` for condition `c`: the column sums of its design
matrix. -/
def colSumSt (st : EState) (c k : ℕ) : ℚ :=
  ∑ t in Finset.range st.H.ntps, st.model t k c

/-- `self.tc.dot(model)` for a 1-D timecourse. -/
def dotTc1 (st : EState) (c k : ℕ) : ℚ :=
  ∑ t in Finset.range st.H.ntps, st.tc1 t * st.model t k c

/-- Row `v` of `self.tc.dot(model)` for a 2-D timecourse. -/
def dotTc2 (st : EState) (c : ℕ) (v k : ℕ) : ℚ :=
  ∑ t in Finset.range st.H.ntps, st.tc2 v t * st.model t k c

/-- `mean_hrf = self.tc.dot(model) / model.sum(axis=0)` (1-D case), with the
division carried out in IEEE arithmetic. -/
def meanHrf1 (st : EState) (c k : ℕ) : F :=
  F.div (F.fin (dotTc1 st c k)) (F.fin (colSumSt st c k))

/-- `mean_hrf` (2-D case), per voxel `v`. -/
def meanHrf2 (st : EState) (c v k : ℕ) : F :=
  F.div (F.fin (dotTc2 st c v k)) (F.fin (colSumSt st c k))

/-- The lag indices selected by the boolean mask `ind = self.tscale < 0`. -/
def prestimIdx (H : Hrf) : List ℕ :=
  (List.range H.tscale.length).filter fun k => decide (H.tscale.getD k 0 < 0)

/-- `mean_prestim = mean_hrf[ind].mean()` (1-D case): sum over the masked
lags divided by their count. -/
def baseline1 (st : EState) (c : ℕ) : F :=
  F.div (Fsum ((prestimIdx st.H).map (meanHrf1 st c)))
    (F.fin ((prestimIdx st.H).length : ℚ))

/-- `mean_prestim = mean_hrf[:, ind].mean(axis=1)` (2-D case), per voxel. -/
def baseline2 (st : EState) (c v : ℕ) : F :=
  F.div (Fsum ((prestimIdx st.H).map (meanHrf2 st c v)))
    (F.fin ((prestimIdx st.H).length : ℚ))

/-- The stored `average_hrf` for a 1-D timecourse. -/
def avg1fun (st : EState) (c : ℕ) (k : ℕ) : F :=
  F.sub (meanHrf1 st c k) (baseline1 st c)

/-- The stored `average_hrf` for a 2-D timecourse. -/
def avg2fun (st : EState) (c : ℕ) (v k : ℕ) : F :=
  F.sub (meanHrf2 st c v k) (baseline2 st c v)

/-- `estimateHRF(metric)`: record `self.metric`, then dispatch on the metric
name; an unknown metric raises `UserDefinedException` after the attribute
assignment, populating no estimates.  `pf` abstracts `np.linalg.pinv`. -/
def estimateHRF (pf : (ℕ → ℕ → ℚ) → ℕ → ℕ → ℚ) (st : EState) (metric : String) :
    EState × Option String :=
  let st1 := { st with metric := some metric }
  if metric = "FIR" then
    if st.tcDim = 1 then
      ({ st1 with fir1 := fun c =>
          if c < st.H.nconds then some (fun i => beta1 pf st (c * nHn st.H + i))
          else st.fir1 c }, none)
    else
      ({ st1 with fir2 := fun c =>
          if c < st.H.nconds then some (fun v i => beta2 pf st (c * nHn st.H + i) v)
          else st.fir2 c }, none)
  else if metric = "average" then
    if st.tcDim = 1 then
      ({ st1 with avg1 := fun c =>
          if c < st.H.nconds then some (avg1fun st c) else st.avg1 c }, none)
    else
      ({ st1 with avg2 := fun c =>
          if c < st.H.nconds then some (avg2fun st c) else st.avg2 c }, none)
  else (st1, some "Metric can only be FIR/average!")

/-! Concrete instances used to witness the theorems: `TR = 1`,
`window = [-2, 2]`, four acquisition samples, one condition. -/

/-- Event table with a single event at onset 2 (condition 1). -/
def tblW : EventTable := ⟨[2], [1], ["a"]⟩

/-- Grid for `tblW` with `TR = ER = 1` and `window = [-2, 2]`:
`nPreStim = 2`, `nHEst = 4`, `tscale = [-1, 0, 1, 2]`. -/
def gridW : Hrf := mkGrid 4 tblW 1 1 (-2) 2

/-- Estimator state over `gridW` with the design tensor built and a 1-D
timecourse `tc[t] = t`. -/
def stW1 : EState :=
  getFIRmodelS (mkEState gridW 1 (fun t => (t : ℚ)) 0 (fun _ _ => 0))

/-- Estimator state over `gridW` with a 2-D timecourse of one voxel,
`tc[v, t] = t`. -/
def stW2 : EState :=
  getFIRmodelS (mkEState gridW 2 (fun _ => 0) 1 (fun _ t => (t : ℚ)))

/-- Event table with a single event at onset 1 (condition 1); its lag-0
column (peristimulus time -2) matches no acquisition sample, giving a
zero column sum. -/
def tblB : EventTable := ⟨[1], [1], ["a"]⟩

/-- Grid for `tblB`, same parameters as `gridW`. -/
def gridB : Hrf := mkGrid 4 tblB 1 1 (-2) 2

/-- Estimator state over `gridB` with the design tensor built and a 1-D
timecourse `tc[t] = t`. -/
def stB1 : EState :=
  getFIRmodelS (mkEState gridB 1 (fun t => (t : ℚ)) 0 (fun _ _ => 0))

/-- Estimator state over `gridB` with a 2-D timecourse of one voxel. -/
def stB2 : EState :=
  getFIRmodelS (mkEState gridB 2 (fun _ => 0) 1 (fun _ t => (t : ℚ)))

/-! Basic lemmas about the numeric and list primitives. -/

theorem getD_range_map {α : Type} (f : ℕ → α) (n i : ℕ) (d : α) (h : i < n) :
    ((List.range n).map f).getD i d = f i := by
  simp [List.getD_eq_getElem?_getD, List.getElem?_map, List.getElem?_range h]

theorem roundHalfEven_nonneg {x : ℚ} (h : 0 ≤ x) : 0 ≤ roundHalfEven x := by
  unfold roundHalfEven
  have hf : (0 : ℤ) ≤ ⌊x⌋ := Int.floor_nonneg.mpr h
  dsimp only
  split
  · exact hf
  · split
    · omega
    · split <;> omega

theorem floor_le_roundHalfEven (x : ℚ) : ⌊x⌋ ≤ roundHalfEven x := by
  unfold roundHalfEven
  dsimp only
  split
  · exact le_refl _
  · split
    · omega
    · split <;> omega

theorem arangeQ_length (start stop step : ℚ) (h : step ≠ 0) :
    (arangeQ start stop step).length = (⌈(stop - start) / step⌉).toNat := by
  unfold arangeQ
  rw [if_neg h, List.length_map, List.length_range]

theorem arangeQ_getD (start stop step : ℚ) (h : step ≠ 0) (i : ℕ)
    (hi : i < (arangeQ start stop step).length) :
    (arangeQ start stop step).getD i 0 = start + (i : ℚ) * step := by
  unfold arangeQ at hi ⊢
  rw [if_neg h] at hi ⊢
  rw [List.length_map, List.length_range] at hi
  exact getD_range_map _ _ _ _ hi

theorem trScaleL_length (H : Hrf) (h : 0 < H.TR) : (trScaleL H).length = H.ntps := by
  unfold trScaleL
  rw [List.length_map, arangeQ_length _ _ _ (ne_of_gt h)]
  rw [sub_zero, mul_div_assoc, div_self (ne_of_gt h), mul_one]
  rw [Int.ceil_natCast]
  exact Int.toNat_natCast H.ntps

theorem trScaleL_getD (H : Hrf) (h : 0 < H.TR) (t : ℕ) (ht : t < H.ntps) :
    (trScaleL H).getD t 0 = fix4 ((t : ℚ) * H.TR) := by
  unfold trScaleL arangeQ
  rw [if_neg (ne_of_gt h)]
  rw [List.map_map]
  have hlen : t < (⌈(((H.ntps : ℚ)) * H.TR - 0) / H.TR⌉).toNat := by
    rw [sub_zero, mul_div_assoc, div_self (ne_of_gt h), mul_one, Int.ceil_natCast,
      Int.toNat_natCast]
    exact ht
  rw [getD_range_map _ _ _ _ hlen]
  simp [fix4]

/-! Characterisation of the design-matrix build. -/

theorem colsFold_apply (ts : List ℚ) (tgt : ℕ → ℚ) (cols : List ℕ)
    (M : ℕ → ℕ → ℚ) (t k : ℕ) :
    colsFold ts tgt cols M t k =
      if k ∈ cols ∧ t < ts.length ∧ ts.getD t 0 = tgt k then 1 else M t k := by
  induction cols generalizing M with
  | nil => simp [colsFold]
  | cons c cs ih =>
    show colsFold ts tgt cs (setRows ts (tgt c) c M) t k = _
    rw [ih]
    by_cases h1 : k ∈ cs ∧ t < ts.length ∧ ts.getD t 0 = tgt k
    · rw [if_pos h1, if_pos ⟨List.mem_cons_of_mem c h1.1, h1.2⟩]
    · rw [if_neg h1]
      unfold setRows
      by_cases h2 : k = c ∧ t < ts.length ∧ ts.getD t 0 = tgt c
      · rw [if_pos h2]
        have hk : k ∈ c :: cs := h2.1 ▸ List.mem_cons_self c cs
        have : ts.getD t 0 = tgt k := by rw [h2.1]; exact h2.2.2
        rw [if_pos ⟨hk, h2.2.1, this⟩]
      · rw [if_neg h2, if_neg]
        rintro ⟨hm, hlt, heq⟩
        rcases List.mem_cons.mp hm with hkc | hkcs
        · exact h2 ⟨hkc, hlt, hkc ▸ heq⟩
        · exact h1 ⟨hkcs, hlt, heq⟩

theorem trialFold_foldl_apply (H : Hrf) (ros : List ℚ) (M : ℕ → ℕ → ℚ) (t k : ℕ) :
    (ros.foldl (fun Mm ro => trialFold H ro Mm) M) t k =
      if ∃ ro ∈ ros, k < nHn H ∧ t < (trScaleL H).length ∧
          (trScaleL H).getD t 0 = targetT H ro k then 1
      else M t k := by
  induction ros generalizing M with
  | nil => simp
  | cons r rs ih =>
    show (rs.foldl (fun Mm ro => trialFold H ro Mm) (trialFold H r M)) t k = _
    rw [ih]
    unfold trialFold
    rw [colsFold_apply]
    simp only [List.mem_range]
    rw [show H.nHEst.toNat = nHn H from rfl]
    by_cases h1 : ∃ ro ∈ rs, k < nHn H ∧ t < (trScaleL H).length ∧
        (trScaleL H).getD t 0 = targetT H ro k
    · rw [if_pos h1]
      obtain ⟨ro, hro, hrest⟩ := h1
      rw [if_pos ⟨ro, List.mem_cons_of_mem r hro, hrest⟩]
    · rw [if_neg h1]
      by_cases h2 : k < nHn H ∧ t < (trScaleL H).length ∧
          (trScaleL H).getD t 0 = targetT H r k
      · rw [if_pos h2, if_pos ⟨r, List.mem_cons_self r rs, h2⟩]
      · rw [if_neg h2, if_neg]
        rintro ⟨ro, hro, hrest⟩
        rcases List.mem_cons.mp hro with hr | hrs
        · exact h2 (hr ▸ hrest)
        · exact h1 ⟨ro, hrs, hrest⟩

theorem trE_apply (H : Hrf) (c t k : ℕ) :
    trE H c t k =
      if ∃ ro ∈ roundedOnsets H c, k < nHn H ∧ t < (trScaleL H).length ∧
          (trScaleL H).getD t 0 = targetT H ro k then 1
      else 0 := by
  unfold trE
  rw [trialFold_foldl_apply]

theorem trE_zero_or_one (H : Hrf) (c t k : ℕ) :
    trE H c t k = 0 ∨ trE H c t k = 1 := by
  rw [trE_apply]
  split
  · exact Or.inr rfl
  · exact Or.inl rfl

theorem condOnsets_mem (tl : List ℚ) (nl : List ℤ) (code : ℤ) (o : ℚ) :
    (o ∈ ((tl.zip nl).filter fun p => p.2 == code).map Prod.fst) ↔
      ∃ i, tl.get? i = some o ∧ nl.get? i = some code := by
  induction tl generalizing nl with
  | nil =>
    simp
  | cons t ts ih =>
    cases nl with
    | nil => simp
    | cons n ns =>
      rw [List.zip_cons_cons, List.filter_cons]
      constructor
      · intro h
        by_cases hn : n = code
        · rw [if_pos (by simpa using hn)] at h
          rcases List.mem_map.mp h with ⟨p, hp, hfst⟩
          rcases List.mem_cons.mp hp with hhead | htail
          · exact ⟨0, by simp [← hfst, hhead], by simp [hn]⟩
          · have := (ih ns).mp (List.mem_map.mpr ⟨p, htail, hfst⟩)
            obtain ⟨i, h1, h2⟩ := this
            exact ⟨i + 1, by simpa using h1, by simpa using h2⟩
        · rw [if_neg (by simpa using hn)] at h
          obtain ⟨i, h1, h2⟩ := (ih ns).mp h
          exact ⟨i + 1, by simpa using h1, by simpa using h2⟩
      · rintro ⟨i, h1, h2⟩
        cases i with
        | zero =>
          simp only [List.get?] at h1 h2
          have ht : t = o := by injection h1
          have hn : n = code := by injection h2
          rw [if_pos (by simpa using hn)]
          exact List.mem_map.mpr ⟨(t, n), List.mem_cons_self _ _, ht⟩
        | succ i =>
          simp only [List.get?] at h1 h2
          have hmem := (ih ns).mpr ⟨i, h1, h2⟩
          by_cases hn : n = code
          · rw [if_pos (by simpa using hn)]
            rcases List.mem_map.mp hmem with ⟨p, hp, hfst⟩
            exact List.mem_map.mpr ⟨p, List.mem_cons_of_mem _ hp, hfst⟩
          · rw [if_neg (by simpa using hn)]
            exact hmem

theorem roundedOnsets_mem (H : Hrf) (c : ℕ) (ro : ℚ) :
    ro ∈ roundedOnsets H c ↔
      ∃ o, (∃ i, H.event_timing.get? i = some o ∧
            H.event_number.get? i = some (H.c_codes.getD c 0)) ∧
        ro = (roundHalfEven (o / H.ER) : ℚ) * H.ER := by
  unfold roundedOnsets condOnsets
  rw [List.mem_map]
  constructor
  · rintro ⟨o, ho, rfl⟩
    exact ⟨o, (condOnsets_mem _ _ _ _).mp ho, rfl⟩
  · rintro ⟨o, ho, rfl⟩
    exact ⟨o, (condOnsets_mem _ _ _ _).mpr ho, rfl⟩

/-! Lemmas about construction. -/

theorem mkHrf_ok {ntps : ℕ} {tbl : EventTable} {TR : ℚ} {er : Option ℚ}
    {w0 w1 : ℚ} {H : Hrf} (hok : mkHrf ntps tbl TR er w0 w1 = Except.ok H) :
    ∃ ER, corrER TR er = Except.ok ER ∧ H = mkGrid ntps tbl TR ER w0 w1 := by
  unfold mkHrf at hok
  cases h : corrER TR er with
  | error s => rw [h] at hok; exact absurd hok (by simp [Except.map])
  | ok ER =>
    rw [h] at hok
    simp only [Except.map] at hok
    exact ⟨ER, rfl, (Except.ok.injEq _ _).mp hok |>.symm⟩

theorem corrER_pos {TR : ℚ} {er : Option ℚ} {ER : ℚ} (hTR : 0 < TR)
    (her : ∀ e, er = some e → 0 < e) (h : corrER TR er = Except.ok ER) : 0 < ER := by
  cases er with
  | none =>
    unfold corrER at h
    have : TR = ER := (Except.ok.injEq _ _).mp h
    exact this ▸ hTR
  | some e =>
    simp only [corrER] at h
    have he : 0 < e := her e rfl
    split at h
    · have : TR = ER := (Except.ok.injEq _ _).mp h
      exact this ▸ hTR
    · split at h
      · split at h
        · exact absurd h (by simp)
        · rename_i hn
          have hq : (0 : ℚ) ≤ TR / e := le_of_lt (div_pos hTR he)
          have hnn : 0 < roundHalfEven (TR / e) :=
            lt_of_le_of_ne (roundHalfEven_nonneg hq) (Ne.symm hn)
          have : TR / ((roundHalfEven (TR / e) : ℤ) : ℚ) = ER := (Except.ok.injEq _ _).mp h
          rw [← this]
          exact div_pos hTR (by exact_mod_cast hnn)
      · have : e = ER := (Except.ok.injEq _ _).mp h
        exact this ▸ he

theorem mkGrid_nHEst_nonneg (ntps : ℕ) (tbl : EventTable) (TR ER w0 w1 : ℚ)
    (hE : 0 < ER) : 0 ≤ (mkGrid ntps tbl TR ER w0 w1).nHEst := by
  show (0 : ℤ) ≤ roundHalfEven (|w0| / ER) + roundHalfEven (|w1| / ER)
  have h0 := roundHalfEven_nonneg (div_nonneg (abs_nonneg w0) (le_of_lt hE))
  have h1 := roundHalfEven_nonneg (div_nonneg (abs_nonneg w1) (le_of_lt hE))
  omega

theorem mkGrid_tscale_length (ntps : ℕ) (tbl : EventTable) (TR ER w0 w1 : ℚ)
    (hE : 0 < ER) :
    (mkGrid ntps tbl TR ER w0 w1).tscale.length =
      (mkGrid ntps tbl TR ER w0 w1).nHEst.toNat := by
  show (arangeQ _ _ _).length = _
  rw [arangeQ_length _ _ _ (ne_of_gt hE)]
  congr 1
  have hcalc :
      (((((roundHalfEven (|w0| / ER) + roundHalfEven (|w1| / ER) : ℤ) : ℚ)) -
          ((⌊|w0| / ER⌋ : ℤ) : ℚ) + 1) * ER -
        (-(⌊|w0| / ER⌋ : ℚ) + 1) * ER) / ER =
      ((roundHalfEven (|w0| / ER) + roundHalfEven (|w1| / ER) : ℤ) : ℚ) := by
    field_simp
    ring
  rw [hcalc, Int.ceil_intCast]
  rfl

theorem mkGrid_tscale_getD (ntps : ℕ) (tbl : EventTable) (TR ER w0 w1 : ℚ)
    (hE : 0 < ER) (i : ℕ) (hi : i < (mkGrid ntps tbl TR ER w0 w1).tscale.length) :
    (mkGrid ntps tbl TR ER w0 w1).tscale.getD i 0 =
      (-((mkGrid ntps tbl TR ER w0 w1).nPreStim : ℚ) + 1 + (i : ℚ)) * ER := by
  have h := arangeQ_getD _ _ _ (ne_of_gt hE) i hi
  rw [show (mkGrid ntps tbl TR ER w0 w1).tscale.getD i 0 =
      (arangeQ ((-(⌊|w0| / ER⌋ : ℚ) + 1) * ER)
        ((((roundHalfEven (|w0| / ER) + roundHalfEven (|w1| / ER) : ℤ) : ℚ) -
          ((⌊|w0| / ER⌋ : ℤ) : ℚ) + 1) * ER) ER).getD i 0 from rfl]
  rw [h]
  show _ = (-((⌊|w0| / ER⌋ : ℤ) : ℚ) + 1 + (i : ℚ)) * ER
  ring

/-- C5: construction computes `Tstart = |w0|`, `Tend = |w1|`,
`nPreStim = floor(Tstart/ER)`, `nHEst = round(Tstart/ER) + round(Tend/ER)`
(round half to even), and `tscale` is a sequence of exactly `nHEst` values
with `tscale[i] = (-nPreStim + 1 + i) * ER`. -/
theorem C5_grid_parameters (ntps : ℕ) (tbl : EventTable) (TR : ℚ) (er : Option ℚ)
    (w0 w1 : ℚ) (H : Hrf) (hok : mkHrf ntps tbl TR er w0 w1 = Except.ok H)
    (hTR : 0 < TR) (hE : 0 < H.ER) :
    H.Tstart = |w0| ∧ H.Tend = |w1| ∧
    H.nPreStim = ⌊H.Tstart / H.ER⌋ ∧
    H.nHEst = roundHalfEven (H.Tstart / H.ER) + roundHalfEven (H.Tend / H.ER) ∧
    (H.tscale.length : ℤ) = H.nHEst ∧
    ∀ i < H.tscale.length,
      H.tscale.getD i 0 = (-(H.nPreStim : ℚ) + 1 + (i : ℚ)) * H.ER := by
  obtain ⟨ER, hc, rfl⟩ := mkHrf_ok hok
  have hE' : 0 < ER := hE
  refine ⟨rfl, rfl, rfl, rfl, ?_, ?_⟩
  · rw [mkGrid_tscale_length ntps tbl TR ER w0 w1 hE']
    exact Int.toNat_of_nonneg (mkGrid_nHEst_nonneg ntps tbl TR ER w0 w1 hE')
  · intro i hi
    exact mkGrid_tscale_getD ntps tbl TR ER w0 w1 hE' i hi

/-- C5 witness: concrete instantiation with `TR = 2`, `window = [-4, 4]`. -/
theorem C5_grid_parameters_witness :
    (mkGrid 6 ⟨[4], [1], ["a"]⟩ 2 2 (-4) 4).Tstart = |(-4 : ℚ)| ∧
    (mkGrid 6 ⟨[4], [1], ["a"]⟩ 2 2 (-4) 4).Tend = |(4 : ℚ)| ∧
    (mkGrid 6 ⟨[4], [1], ["a"]⟩ 2 2 (-4) 4).nPreStim =
      ⌊(mkGrid 6 ⟨[4], [1], ["a"]⟩ 2 2 (-4) 4).Tstart /
        (mkGrid 6 ⟨[4], [1], ["a"]⟩ 2 2 (-4) 4).ER⌋ ∧
    (mkGrid 6 ⟨[4], [1], ["a"]⟩ 2 2 (-4) 4).nHEst =
      roundHalfEven ((mkGrid 6 ⟨[4], [1], ["a"]⟩ 2 2 (-4) 4).Tstart /
        (mkGrid 6 ⟨[4], [1], ["a"]⟩ 2 2 (-4) 4).ER) +
      roundHalfEven ((mkGrid 6 ⟨[4], [1], ["a"]⟩ 2 2 (-4) 4).Tend /
        (mkGrid 6 ⟨[4], [1], ["a"]⟩ 2 2 (-4) 4).ER) ∧
    (((mkGrid 6 ⟨[4], [1], ["a"]⟩ 2 2 (-4) 4).tscale.length : ℤ) =
      (mkGrid 6 ⟨[4], [1], ["a"]⟩ 2 2 (-4) 4).nHEst) ∧
    ∀ i < (mkGrid 6 ⟨[4], [1], ["a"]⟩ 2 2 (-4) 4).tscale.length,
      (mkGrid 6 ⟨[4], [1], ["a"]⟩ 2 2 (-4) 4).tscale.getD i 0 =
        (-((mkGrid 6 ⟨[4], [1], ["a"]⟩ 2 2 (-4) 4).nPreStim : ℚ) + 1 + (i : ℚ)) *
          (mkGrid 6 ⟨[4], [1], ["a"]⟩ 2 2 (-4) 4).ER :=
  C5_grid_parameters 6 ⟨[4], [1], ["a"]⟩ 2 none (-4) 4
    (mkGrid 6 ⟨[4], [1], ["a"]⟩ 2 2 (-4) 4) rfl (by norm_num) (by decide)

/-- C4 counterexample: with `TR = 1 > 0`, supplied `ER = 3 ≠ TR` and
`TR mod ER ≠ 0`, the correction divisor `round(TR/ER) = round(1/3)` is zero,
so construction raises `ZeroDivisionError` instead of emitting a non-fatal
notice. -/
theorem C4_counterexample :
    (0 : ℚ) < 1 ∧ (3 : ℚ) ≠ 1 ∧ qmod 1 3 ≠ 0 ∧
    mkHrf 1 ⟨[], [], []⟩ 1 (some 3) (-4) 24 = Except.error "ZeroDivisionError" := by
  have hmod : qmod 1 3 ≠ 0 := by norm_num [qmod]
  have hrz : roundHalfEven ((1 : ℚ) / 3) = 0 := by norm_num [roundHalfEven]
  refine ⟨by norm_num, by norm_num, hmod, ?_⟩
  unfold mkHrf
  have hc : corrER 1 (some 3) = Except.error "ZeroDivisionError" := by
    simp only [corrER]
    rw [if_neg (by norm_num : (3 : ℚ) ≠ 1), if_pos hmod, if_pos hrz]
  rw [hc]
  rfl

/-- C4 (amended): for `TR > 0` and supplied `ER ≠ TR` with `TR mod ER ≠ 0`,
provided additionally that `round(TR/ER) ≠ 0`, construction succeeds
(non-fatal), replaces ER with `TR / round(TR/ER)`, and the corrected ER
exactly divides TR: `TR / ER' = round(TR/ER)`, an integer. -/
theorem C4_er_correction_amended (ntps : ℕ) (tbl : EventTable) (TR e w0 w1 : ℚ)
    (hTR : 0 < TR) (hne : e ≠ TR) (hmod : qmod TR e ≠ 0)
    (hn : roundHalfEven (TR / e) ≠ 0) :
    mkHrf ntps tbl TR (some e) w0 w1 =
      Except.ok (mkGrid ntps tbl TR (TR / ((roundHalfEven (TR / e) : ℤ) : ℚ)) w0 w1) ∧
    (mkGrid ntps tbl TR (TR / ((roundHalfEven (TR / e) : ℤ) : ℚ)) w0 w1).ER =
      TR / ((roundHalfEven (TR / e) : ℤ) : ℚ) ∧
    TR / (TR / ((roundHalfEven (TR / e) : ℤ) : ℚ)) =
      ((roundHalfEven (TR / e) : ℤ) : ℚ) := by
  have hc : corrER TR (some e) =
      Except.ok (TR / ((roundHalfEven (TR / e) : ℤ) : ℚ)) := by
    simp only [corrER]
    rw [if_neg hne, if_pos hmod, if_neg hn]
  refine ⟨?_, rfl, ?_⟩
  · unfold mkHrf
    rw [hc]
    rfl
  · rw [div_div_eq_mul_div, mul_comm, mul_div_assoc, div_self (ne_of_gt hTR), mul_one]

/-- C4 witness: `TR = 2`, `ER = 4/3`; the corrected ER is `1` and divides 2. -/
theorem C4_er_correction_witness :
    mkHrf 1 ⟨[], [], []⟩ 2 (some (4/3)) (-4) 24 =
      Except.ok (mkGrid 1 ⟨[], [], []⟩ 2
        (2 / ((roundHalfEven ((2 : ℚ) / (4/3)) : ℤ) : ℚ)) (-4) 24) ∧
    (mkGrid 1 ⟨[], [], []⟩ 2
        (2 / ((roundHalfEven ((2 : ℚ) / (4/3)) : ℤ) : ℚ)) (-4) 24).ER =
      2 / ((roundHalfEven ((2 : ℚ) / (4/3)) : ℤ) : ℚ) ∧
    (2 : ℚ) / (2 / ((roundHalfEven ((2 : ℚ) / (4/3)) : ℤ) : ℚ)) =
      ((roundHalfEven ((2 : ℚ) / (4/3)) : ℤ) : ℚ) :=
  C4_er_correction_amended 1 ⟨[], [], []⟩ 2 (4/3) (-4) 24
    (by norm_num) (by norm_num) (by norm_num [qmod]) (by norm_num [roundHalfEven])

theorem grid24_nPreStim :
    (mkGrid 6 ⟨[4], [1], ["a"]⟩ 2 2 (-4) 24).nPreStim = 2 := by
  show (⌊|(-4 : ℚ)| / 2⌋ : ℤ) = 2
  norm_num

theorem grid24_nHEst :
    (mkGrid 6 ⟨[4], [1], ["a"]⟩ 2 2 (-4) 24).nHEst = 14 := by
  show roundHalfEven (|(-4 : ℚ)| / 2) + roundHalfEven (|(24 : ℚ)| / 2) = 14
  norm_num [roundHalfEven]

theorem grid24_ER_pos :
    0 < (mkGrid 6 ⟨[4], [1], ["a"]⟩ 2 2 (-4) 24).ER := by
  show (0 : ℚ) < 2
  norm_num

theorem grid24_tscale_at_two :
    (mkGrid 6 ⟨[4], [1], ["a"]⟩ 2 2 (-4) 24).tscale.getD 2 0 = 2 := by
  have hlen := mkGrid_tscale_length 6 ⟨[4], [1], ["a"]⟩ 2 2 (-4) 24 grid24_ER_pos
  have h2 : (2 : ℕ) < (mkGrid 6 ⟨[4], [1], ["a"]⟩ 2 2 (-4) 24).tscale.length := by
    rw [hlen, grid24_nHEst]
    norm_num
  rw [mkGrid_tscale_getD 6 ⟨[4], [1], ["a"]⟩ 2 2 (-4) 24 grid24_ER_pos 2 h2,
    grid24_nPreStim]
  norm_num

/-- C8 counterexample: with `TR = 2`, `window = [-4, 24]`, `ER = TR`, the
constructed grid has `nPreStim = 2` but `tscale[nPreStim] = 2 = ER`, not 0:
the time scale is centred so that index `nPreStim - 1`, not `nPreStim`,
corresponds to time zero. -/
theorem C8_counterexample :
    (mkHrf 6 ⟨[4], [1], ["a"]⟩ 2 none (-4) 24).map
        (fun H => (H.nPreStim, H.tscale.getD H.nPreStim.toNat 0)) =
      Except.ok ((2 : ℤ), (2 : ℚ)) ∧ (2 : ℚ) ≠ 0 := by
  constructor
  · have hok : mkHrf 6 ⟨[4], [1], ["a"]⟩ 2 none (-4) 24 =
        Except.ok (mkGrid 6 ⟨[4], [1], ["a"]⟩ 2 2 (-4) 24) := rfl
    rw [hok]
    simp only [Except.map]
    rw [grid24_nPreStim]
    rw [show ((2 : ℤ)).toNat = 2 from rfl, grid24_tscale_at_two]
  · norm_num

/-- C8 (amended): `tscale` is an ordered sequence of `nHEst` values spaced
by ER, and (when `nPreStim ≥ 1`) it is index `nPreStim - 1` that corresponds
to time 0: `tscale[nPreStim - 1] = 0` (so `tscale[nPreStim] = ER`). -/
theorem C8_tscale_centering_amended (ntps : ℕ) (tbl : EventTable) (TR : ℚ)
    (er : Option ℚ) (w0 w1 : ℚ) (H : Hrf)
    (hok : mkHrf ntps tbl TR er w0 w1 = Except.ok H)
    (hE : 0 < H.ER) (hpre : 1 ≤ H.nPreStim) :
    (∀ i, i + 1 < H.tscale.length →
      H.tscale.getD (i + 1) 0 - H.tscale.getD i 0 = H.ER ∧
      H.tscale.getD i 0 < H.tscale.getD (i + 1) 0) ∧
    H.nPreStim.toNat - 1 < H.tscale.length ∧
    H.tscale.getD (H.nPreStim.toNat - 1) 0 = 0 := by
  obtain ⟨ER, hc, rfl⟩ := mkHrf_ok hok
  have hE' : 0 < ER := hE
  have hlen := mkGrid_tscale_length ntps tbl TR ER w0 w1 hE'
  refine ⟨?_, ?_⟩
  · intro i hi
    have h1 := mkGrid_tscale_getD ntps tbl TR ER w0 w1 hE' (i + 1) hi
    have h0 := mkGrid_tscale_getD ntps tbl TR ER w0 w1 hE' i (Nat.lt_of_succ_lt hi)
    rw [show (mkGrid ntps tbl TR ER w0 w1).ER = ER from rfl]
    constructor
    · rw [h1, h0]
      push_cast
      ring
    · rw [h1, h0]
      have hstep : (-(((mkGrid ntps tbl TR ER w0 w1).nPreStim : ℤ) : ℚ) + 1 + (i : ℚ)) <
          (-(((mkGrid ntps tbl TR ER w0 w1).nPreStim : ℤ) : ℚ) + 1 + ((i : ℕ) + 1 : ℕ)) := by
        push_cast
        linarith
      exact mul_lt_mul_of_pos_right hstep hE'
  · have hfr : (mkGrid ntps tbl TR ER w0 w1).nPreStim ≤
        roundHalfEven (|w0| / ER) := floor_le_roundHalfEven _
    have hw1 : 0 ≤ roundHalfEven (|w1| / ER) :=
      roundHalfEven_nonneg (div_nonneg (abs_nonneg w1) hE'.le)
    have hple : (mkGrid ntps tbl TR ER w0 w1).nPreStim ≤
        (mkGrid ntps tbl TR ER w0 w1).nHEst := by
      show (mkGrid ntps tbl TR ER w0 w1).nPreStim ≤
        roundHalfEven (|w0| / ER) + roundHalfEven (|w1| / ER)
      omega
    have hpre' : 1 ≤ (mkGrid ntps tbl TR ER w0 w1).nPreStim := hpre
    have hlt : (mkGrid ntps tbl TR ER w0 w1).nPreStim.toNat - 1 <
        (mkGrid ntps tbl TR ER w0 w1).tscale.length := by
      rw [hlen]
      omega
    refine ⟨hlt, ?_⟩
    rw [mkGrid_tscale_getD ntps tbl TR ER w0 w1 hE' _ hlt]
    have hcast : (((mkGrid ntps tbl TR ER w0 w1).nPreStim.toNat - 1 : ℕ) : ℚ) =
        (((mkGrid ntps tbl TR ER w0 w1).nPreStim : ℤ) : ℚ) - 1 := by
      have h2 : (((mkGrid ntps tbl TR ER w0 w1).nPreStim.toNat : ℤ) : ℚ) =
          (((mkGrid ntps tbl TR ER w0 w1).nPreStim : ℤ) : ℚ) := by
        rw [Int.toNat_of_nonneg (by omega)]
      have h1' : 1 ≤ (mkGrid ntps tbl TR ER w0 w1).nPreStim.toNat := by omega
      rw [Nat.cast_sub h1']
      push_cast at h2 ⊢
      rw [h2]
    rw [hcast]
    have hz : (-((((mkGrid ntps tbl TR ER w0 w1).nPreStim : ℤ) : ℚ)) + 1 +
        ((((mkGrid ntps tbl TR ER w0 w1).nPreStim : ℤ) : ℚ) - 1)) = 0 := by ring
    rw [hz, zero_mul]

/-- C8 witness: the amended statement holds at `TR = 2`, `window = [-4, 24]`. -/
theorem C8_tscale_centering_witness :
    (∀ i, i + 1 < (mkGrid 6 ⟨[4], [1], ["a"]⟩ 2 2 (-4) 24).tscale.length →
      (mkGrid 6 ⟨[4], [1], ["a"]⟩ 2 2 (-4) 24).tscale.getD (i + 1) 0 -
        (mkGrid 6 ⟨[4], [1], ["a"]⟩ 2 2 (-4) 24).tscale.getD i 0 =
        (mkGrid 6 ⟨[4], [1], ["a"]⟩ 2 2 (-4) 24).ER ∧
      (mkGrid 6 ⟨[4], [1], ["a"]⟩ 2 2 (-4) 24).tscale.getD i 0 <
        (mkGrid 6 ⟨[4], [1], ["a"]⟩ 2 2 (-4) 24).tscale.getD (i + 1) 0) ∧
    (mkGrid 6 ⟨[4], [1], ["a"]⟩ 2 2 (-4) 24).nPreStim.toNat - 1 <
      (mkGrid 6 ⟨[4], [1], ["a"]⟩ 2 2 (-4) 24).tscale.length ∧
    (mkGrid 6 ⟨[4], [1], ["a"]⟩ 2 2 (-4) 24).tscale.getD
      ((mkGrid 6 ⟨[4], [1], ["a"]⟩ 2 2 (-4) 24).nPreStim.toNat - 1) 0 = 0 :=
  C8_tscale_centering_amended 6 ⟨[4], [1], ["a"]⟩ 2 none (-4) 24
    (mkGrid 6 ⟨[4], [1], ["a"]⟩ 2 2 (-4) 24) rfl grid24_ER_pos
    (by rw [grid24_nPreStim]; norm_num)

/-! Lemmas about condition discovery (`np.unique` semantics). -/

theorem idxOfInt_get? {code : ℤ} {l : List ℤ} (h : code ∈ l) :
    l.get? (idxOfInt code l) = some code := by
  induction l with
  | nil => cases h
  | cons x xs ih =>
    by_cases hx : x = code
    · simp [idxOfInt, hx]
    · rcases List.mem_cons.mp h with h1 | h2
      · exact absurd h1.symm hx
      · simp only [idxOfInt, if_neg hx]
        exact ih h2

theorem idxOfInt_min {code : ℤ} {l : List ℤ} (j : ℕ) (hj : j < idxOfInt code l) :
    l.getD j 0 ≠ code := by
  induction l generalizing j with
  | nil => simp [idxOfInt] at hj
  | cons x xs ih =>
    by_cases hx : x = code
    · simp [idxOfInt, hx] at hj
    · rw [idxOfInt, if_neg hx] at hj
      cases j with
      | zero => simpa using hx
      | succ j =>
        have := ih j (by omega)
        simpa using this

theorem uniqueSorted_sorted (l : List ℤ) : List.Sorted (· ≤ ·) (uniqueSorted l) :=
  List.sorted_insertionSort _ _

theorem uniqueSorted_nodup (l : List ℤ) : (uniqueSorted l).Nodup :=
  (List.perm_insertionSort _ _).nodup_iff.mpr l.nodup_dedup

theorem uniqueSorted_mem (l : List ℤ) (x : ℤ) : x ∈ uniqueSorted l ↔ x ∈ l := by
  unfold uniqueSorted
  rw [(List.perm_insertionSort _ _).mem_iff, List.mem_dedup]

theorem getD_mem_of_lt {l : List ℤ} {i : ℕ} (h : i < l.length) : l.getD i 0 ∈ l := by
  rw [List.getD_eq_getElem?_getD, List.getElem?_eq_getElem h]
  exact List.getElem_mem h

theorem getD_map_str (l : List ℤ) (f : ℤ → String) (i : ℕ) (h : i < l.length)
    (d : String) : (l.map f).getD i d = f (l.getD i 0) := by
  simp [List.getD_eq_getElem?_getD, List.getElem?_map, List.getElem?_eq_getElem h]

/-- C7 counterexample: with event codes `[2, 1]` (labels `["b", "a"]`), the
condition records are ordered by ascending code (`np.unique` sorts), giving
codes `[1, 2]` and labels `["a", "b"]` -- not the first-appearance order
`[2, 1]` the claim states. -/
theorem C7_counterexample :
    (mkHrf 6 ⟨[0, 1], [2, 1], ["b", "a"]⟩ 2 none (-4) 4).map Hrf.c_codes =
      Except.ok [1, 2] ∧
    (mkHrf 6 ⟨[0, 1], [2, 1], ["b", "a"]⟩ 2 none (-4) 4).map Hrf.c_labels =
      Except.ok ["a", "b"] ∧
    firstAppearance [2, 1] = [2, 1] ∧
    ([1, 2] : List ℤ) ≠ [2, 1] :=
  ⟨rfl, rfl, by decide, by decide⟩

/-- C7 (amended): the condition records built at construction are ordered by
ascending condition code (`np.unique` returns sorted unique codes), not by
first appearance; the label assigned to each condition is the label of its
first-occurring event (by original table order). -/
theorem C7_condition_order_amended (ntps : ℕ) (tbl : EventTable) (TR : ℚ)
    (er : Option ℚ) (w0 w1 : ℚ) (H : Hrf)
    (hok : mkHrf ntps tbl TR er w0 w1 = Except.ok H) :
    List.Sorted (· ≤ ·) H.c_codes ∧ H.c_codes.Nodup ∧
    (∀ x : ℤ, x ∈ H.c_codes ↔ x ∈ H.event_number) ∧
    H.nconds = H.c_codes.length ∧
    H.c_labels.length = H.c_codes.length ∧
    ∀ i < H.c_codes.length,
      ∃ j, H.event_number.get? j = some (H.c_codes.getD i 0) ∧
        (∀ j2 < j, H.event_number.getD j2 0 ≠ H.c_codes.getD i 0) ∧
        H.c_labels.getD i "" = tbl.labels.getD j "" := by
  obtain ⟨ER, hc, rfl⟩ := mkHrf_ok hok
  refine ⟨uniqueSorted_sorted _, uniqueSorted_nodup _,
    fun x => uniqueSorted_mem _ x, rfl, List.length_map _ _, ?_⟩
  intro i hi
  have hmem : (uniqueSorted tbl.number).getD i 0 ∈ uniqueSorted tbl.number :=
    getD_mem_of_lt hi
  have hmem' : (uniqueSorted tbl.number).getD i 0 ∈ tbl.number :=
    (uniqueSorted_mem _ _).mp hmem
  refine ⟨idxOfInt ((uniqueSorted tbl.number).getD i 0) tbl.number,
    idxOfInt_get? hmem', fun j2 hj2 => idxOfInt_min j2 hj2, ?_⟩
  exact getD_map_str (uniqueSorted tbl.number)
    (fun code => tbl.labels.getD (idxOfInt code tbl.number) "") i hi ""

/-- C7 witness: the amended statement instantiated on the two-condition
table with codes `[2, 1]`. -/
theorem C7_condition_order_witness :
    List.Sorted (· ≤ ·) (mkGrid 6 ⟨[0, 1], [2, 1], ["b", "a"]⟩ 2 2 (-4) 4).c_codes ∧
    (mkGrid 6 ⟨[0, 1], [2, 1], ["b", "a"]⟩ 2 2 (-4) 4).c_codes.Nodup ∧
    (∀ x : ℤ, x ∈ (mkGrid 6 ⟨[0, 1], [2, 1], ["b", "a"]⟩ 2 2 (-4) 4).c_codes ↔
      x ∈ (mkGrid 6 ⟨[0, 1], [2, 1], ["b", "a"]⟩ 2 2 (-4) 4).event_number) ∧
    (mkGrid 6 ⟨[0, 1], [2, 1], ["b", "a"]⟩ 2 2 (-4) 4).nconds =
      (mkGrid 6 ⟨[0, 1], [2, 1], ["b", "a"]⟩ 2 2 (-4) 4).c_codes.length ∧
    (mkGrid 6 ⟨[0, 1], [2, 1], ["b", "a"]⟩ 2 2 (-4) 4).c_labels.length =
      (mkGrid 6 ⟨[0, 1], [2, 1], ["b", "a"]⟩ 2 2 (-4) 4).c_codes.length ∧
    ∀ i < (mkGrid 6 ⟨[0, 1], [2, 1], ["b", "a"]⟩ 2 2 (-4) 4).c_codes.length,
      ∃ j, (mkGrid 6 ⟨[0, 1], [2, 1], ["b", "a"]⟩ 2 2 (-4) 4).event_number.get? j =
          some ((mkGrid 6 ⟨[0, 1], [2, 1], ["b", "a"]⟩ 2 2 (-4) 4).c_codes.getD i 0) ∧
        (∀ j2 < j, (mkGrid 6 ⟨[0, 1], [2, 1], ["b", "a"]⟩ 2 2 (-4) 4).event_number.getD j2 0 ≠
          (mkGrid 6 ⟨[0, 1], [2, 1], ["b", "a"]⟩ 2 2 (-4) 4).c_codes.getD i 0) ∧
        (mkGrid 6 ⟨[0, 1], [2, 1], ["b", "a"]⟩ 2 2 (-4) 4).c_labels.getD i "" =
          (["b", "a"] : List String).getD j "" :=
  C7_condition_order_amended 6 ⟨[0, 1], [2, 1], ["b", "a"]⟩ 2 none (-4) 4
    (mkGrid 6 ⟨[0, 1], [2, 1], ["b", "a"]⟩ 2 2 (-4) 4) rfl

/-! Concrete evaluation lemmas for the witness instances. -/

theorem range_four : List.range 4 = [0, 1, 2, 3] := rfl

theorem toNat_four : (4 : ℤ).toNat = 4 := rfl

theorem gridW_nHEst : gridW.nHEst = 4 := by
  show roundHalfEven (|(-2 : ℚ)| / 1) + roundHalfEven (|(2 : ℚ)| / 1) = 4
  norm_num [roundHalfEven]

theorem gridW_nHn : nHn gridW = 4 := by rw [nHn, gridW_nHEst]; rfl

theorem gridW_nPreStim : gridW.nPreStim = 2 := by
  show (⌊|(-2 : ℚ)| / 1⌋ : ℤ) = 2
  norm_num

theorem gridW_TR_pos : 0 < gridW.TR := by
  show (0 : ℚ) < 1
  norm_num

theorem gridW_ER_pos : 0 < gridW.ER := by
  show (0 : ℚ) < 1
  norm_num

theorem gridW_tscale : gridW.tscale = [-1, 0, 1, 2] := by
  show arangeQ ((-(⌊|(-2 : ℚ)| / 1⌋ : ℚ) + 1) * 1)
      ((((roundHalfEven (|(-2 : ℚ)| / 1) + roundHalfEven (|(2 : ℚ)| / 1) : ℤ) : ℚ) -
        ((⌊|(-2 : ℚ)| / 1⌋ : ℤ) : ℚ) + 1) * 1) 1 = [-1, 0, 1, 2]
  norm_num [arangeQ, roundHalfEven]
  rw [show (4 : ℤ).toNat = 4 from rfl, range_four]
  norm_num

theorem trScaleL_gridW : trScaleL gridW = [0, 1, 2, 3] := by
  show (arangeQ 0 (((4 : ℕ) : ℚ) * 1) 1).map fix4 = [0, 1, 2, 3]
  norm_num [arangeQ]
  rw [show (4 : ℤ).toNat = 4 from rfl, range_four]
  norm_num [fix4, qfix]

theorem gridB_nHEst : gridB.nHEst = 4 := by
  show roundHalfEven (|(-2 : ℚ)| / 1) + roundHalfEven (|(2 : ℚ)| / 1) = 4
  norm_num [roundHalfEven]

theorem gridB_nHn : nHn gridB = 4 := by rw [nHn, gridB_nHEst]; rfl

theorem gridB_tscale : gridB.tscale = [-1, 0, 1, 2] := by
  show arangeQ ((-(⌊|(-2 : ℚ)| / 1⌋ : ℚ) + 1) * 1)
      ((((roundHalfEven (|(-2 : ℚ)| / 1) + roundHalfEven (|(2 : ℚ)| / 1) : ℤ) : ℚ) -
        ((⌊|(-2 : ℚ)| / 1⌋ : ℤ) : ℚ) + 1) * 1) 1 = [-1, 0, 1, 2]
  norm_num [arangeQ, roundHalfEven]
  rw [show (4 : ℤ).toNat = 4 from rfl, range_four]
  norm_num

theorem modelW_eval (t k : ℕ) (ht : t < 4) (hk : k < 4) :
    modelOf gridW t k 0 = if t = k then 1 else 0 := by
  interval_cases t <;> interval_cases k <;>
    norm_num [modelOf, trE, roundedOnsets, condOnsets, trialFold, colsFold, setRows,
      trScaleL, arangeQ, targetT, round4, fix4, roundHalfEven, qfix, gridW, mkGrid,
      tblW, uniqueSorted, List.dedup, List.insertionSort, range_four, toNat_four,
      -Int.self_sub_floor]

theorem modelB_eval (t k : ℕ) (ht : t < 4) (hk : k < 4) :
    modelOf gridB t k 0 = if t + 1 = k then 1 else 0 := by
  interval_cases t <;> interval_cases k <;>
    norm_num [modelOf, trE, roundedOnsets, condOnsets, trialFold, colsFold, setRows,
      trScaleL, arangeQ, targetT, round4, fix4, roundHalfEven, qfix, gridB, mkGrid,
      tblB, uniqueSorted, List.dedup, List.insertionSort, range_four, toNat_four,
      -Int.self_sub_floor]

theorem stW1_colSum (k : ℕ) (hk : k < 4) : colSumSt stW1 0 k = 1 := by
  show ∑ t in Finset.range 4, stW1.model t k 0 = 1
  have hm : ∀ t ∈ Finset.range 4, stW1.model t k 0 = if t = k then 1 else 0 :=
    fun t htm => modelW_eval t k (Finset.mem_range.mp htm) hk
  rw [Finset.sum_congr rfl hm, Finset.sum_ite_eq' (Finset.range 4) k fun _ => (1 : ℚ)]
  simp [Finset.mem_range, hk]

theorem prestim_gridW : prestimIdx gridW = [0] := by
  rw [prestimIdx, gridW_tscale]
  decide

theorem prestim_gridB : prestimIdx gridB = [0] := by
  rw [prestimIdx, gridB_tscale]
  decide

theorem stB1_colSum_zero : colSumSt stB1 0 0 = 0 := by
  show ∑ t in Finset.range 4, stB1.model t 0 0 = 0
  have hm : ∀ t ∈ Finset.range 4, stB1.model t 0 0 = 0 := by
    intro t htm
    rw [show stB1.model t 0 0 = modelOf gridB t 0 0 from rfl,
      modelB_eval t 0 (Finset.mem_range.mp htm) (by norm_num)]
    simp
  rw [Finset.sum_congr rfl hm]
  simp

/-- C1: after the design-matrix build, the design matrix of condition `c`
has `trE[t, k] = 1` iff some event of that condition, with snapped onset
`round(onset/ER)*ER`, has acquisition time `fix(t*TR*1e4)/1e4` equal to the
target time `round((rounded_onset + (k - nPreStim)*ER)*1e4)/1e4`; every
other entry is 0 (and every acquisition sample tying with the target is
set, since the characterisation holds for all `t`). -/
theorem C1_design_matrix_characterisation (st : EState) (c t k : ℕ)
    (hTR : 0 < st.H.TR) (hc : c < st.H.nconds) (ht : t < st.H.ntps)
    (hk : k < nHn st.H) :
    ((getFIRmodelS st).model t k c = 1 ↔
      ∃ i o, st.H.event_timing.get? i = some o ∧
        st.H.event_number.get? i = some (st.H.c_codes.getD c 0) ∧
        fix4 ((t : ℚ) * st.H.TR) =
          round4 (((roundHalfEven (o / st.H.ER) : ℤ) : ℚ) * st.H.ER +
            (((k : ℤ) : ℚ) - ((st.H.nPreStim : ℤ) : ℚ)) * st.H.ER)) ∧
    ((getFIRmodelS st).model t k c = 0 ↔
      ¬∃ i o, st.H.event_timing.get? i = some o ∧
        st.H.event_number.get? i = some (st.H.c_codes.getD c 0) ∧
        fix4 ((t : ℚ) * st.H.TR) =
          round4 (((roundHalfEven (o / st.H.ER) : ℤ) : ℚ) * st.H.ER +
            (((k : ℤ) : ℚ) - ((st.H.nPreStim : ℤ) : ℚ)) * st.H.ER)) := by
  have hmodel : (getFIRmodelS st).model t k c = trE st.H c t k := by
    show (if c < st.H.nconds then trE st.H c t k else 0) = trE st.H c t k
    rw [if_pos hc]
  have hiff : (∃ ro ∈ roundedOnsets st.H c, k < nHn st.H ∧
      t < (trScaleL st.H).length ∧ (trScaleL st.H).getD t 0 = targetT st.H ro k) ↔
      (∃ i o, st.H.event_timing.get? i = some o ∧
        st.H.event_number.get? i = some (st.H.c_codes.getD c 0) ∧
        fix4 ((t : ℚ) * st.H.TR) =
          round4 (((roundHalfEven (o / st.H.ER) : ℤ) : ℚ) * st.H.ER +
            (((k : ℤ) : ℚ) - ((st.H.nPreStim : ℤ) : ℚ)) * st.H.ER)) := by
    constructor
    · rintro ⟨ro, hro, _, _, heq⟩
      obtain ⟨o, ⟨i, h1, h2⟩, rfl⟩ := (roundedOnsets_mem st.H c ro).mp hro
      refine ⟨i, o, h1, h2, ?_⟩
      rw [trScaleL_getD st.H hTR t ht] at heq
      exact heq
    · rintro ⟨i, o, h1, h2, heq⟩
      refine ⟨((roundHalfEven (o / st.H.ER) : ℤ) : ℚ) * st.H.ER,
        (roundedOnsets_mem st.H c _).mpr ⟨o, ⟨i, h1, h2⟩, rfl⟩, hk, ?_, ?_⟩
      · rw [trScaleL_length st.H hTR]
        exact ht
      · rw [trScaleL_getD st.H hTR t ht]
        exact heq
  rw [hmodel, trE_apply]
  by_cases hp : ∃ ro ∈ roundedOnsets st.H c, k < nHn st.H ∧
      t < (trScaleL st.H).length ∧ (trScaleL st.H).getD t 0 = targetT st.H ro k
  · rw [if_pos hp]
    exact ⟨iff_of_true rfl (hiff.mp hp),
      iff_of_false one_ne_zero fun hn => hn (hiff.mp hp)⟩
  · rw [if_neg hp]
    exact ⟨iff_of_false zero_ne_one fun hex => hp (hiff.mpr hex),
      iff_of_true rfl fun hex => hp (hiff.mpr hex)⟩

/-- C1 witness: concrete instantiation at `t = 1`, `k = 1` of the single
event at onset 2 on the `TR = ER = 1` grid. -/
theorem C1_design_matrix_witness :
    ((getFIRmodelS stW1).model 1 1 0 = 1 ↔
      ∃ i o, stW1.H.event_timing.get? i = some o ∧
        stW1.H.event_number.get? i = some (stW1.H.c_codes.getD 0 0) ∧
        fix4 ((1 : ℚ) * stW1.H.TR) =
          round4 (((roundHalfEven (o / stW1.H.ER) : ℤ) : ℚ) * stW1.H.ER +
            (((1 : ℤ) : ℚ) - ((stW1.H.nPreStim : ℤ) : ℚ)) * stW1.H.ER)) ∧
    ((getFIRmodelS stW1).model 1 1 0 = 0 ↔
      ¬∃ i o, stW1.H.event_timing.get? i = some o ∧
        stW1.H.event_number.get? i = some (stW1.H.c_codes.getD 0 0) ∧
        fix4 ((1 : ℚ) * stW1.H.TR) =
          round4 (((roundHalfEven (o / stW1.H.ER) : ℤ) : ℚ) * stW1.H.ER +
            (((1 : ℤ) : ℚ) - ((stW1.H.nPreStim : ℤ) : ℚ)) * stW1.H.ER)) :=
  C1_design_matrix_characterisation stW1 0 1 1 gridW_TR_pos (by decide) (by decide)
    (by rw [show nHn stW1.H = nHn gridW from rfl, gridW_nHn]; norm_num)

/-- C9: after the design-matrix build every entry of every condition matrix
is exactly 0 or 1; barring acquisition-grid collisions (the acquisition
time scale is injective below `ntps`), each column of condition `c` sums to
at most the number of events of condition `c`; and both estimation paths
(indeed, every `estimateHRF` call) leave the design tensor unchanged. -/
theorem C9_design_matrix_invariants (st : EState)
    (hTR : 0 < st.H.TR)
    (hinj : ∀ t1 < st.H.ntps, ∀ t2 < st.H.ntps,
      (trScaleL st.H).getD t1 0 = (trScaleL st.H).getD t2 0 → t1 = t2) :
    (∀ t k c, (getFIRmodelS st).model t k c = 0 ∨
      (getFIRmodelS st).model t k c = 1) ∧
    (∀ c < st.H.nconds, ∀ k,
      colSumSt (getFIRmodelS st) c k ≤ ((condOnsets st.H c).length : ℚ)) ∧
    (∀ pf m, ((estimateHRF pf (getFIRmodelS st) m).1).model =
      (getFIRmodelS st).model) := by
  refine ⟨?_, ?_, ?_⟩
  · intro t k c
    show (if c < st.H.nconds then trE st.H c t k else 0) = 0 ∨
      (if c < st.H.nconds then trE st.H c t k else 0) = 1
    by_cases hc : c < st.H.nconds
    · rw [if_pos hc]
      exact trE_zero_or_one st.H c t k
    · rw [if_neg hc]
      exact Or.inl rfl
  · intro c hc k
    have hmodel : ∀ t, (getFIRmodelS st).model t k c = trE st.H c t k := by
      intro t
      show (if c < st.H.nconds then trE st.H c t k else 0) = _
      rw [if_pos hc]
    have hsum : colSumSt (getFIRmodelS st) c k =
        (((Finset.range st.H.ntps).filter (fun t =>
          ∃ ro ∈ roundedOnsets st.H c, k < nHn st.H ∧
            t < (trScaleL st.H).length ∧
            (trScaleL st.H).getD t 0 = targetT st.H ro k)).card : ℚ) := by
      show (∑ t in Finset.range st.H.ntps, (getFIRmodelS st).model t k c) = _
      rw [Finset.sum_congr rfl fun t _ => by rw [hmodel t, trE_apply]]
      rw [Finset.sum_boole]
    rw [hsum]
    have hcard : ((Finset.range st.H.ntps).filter (fun t =>
        ∃ ro ∈ roundedOnsets st.H c, k < nHn st.H ∧
          t < (trScaleL st.H).length ∧
          (trScaleL st.H).getD t 0 = targetT st.H ro k)).card ≤
        (condOnsets st.H c).length := by
      have hstep : ((Finset.range st.H.ntps).filter (fun t =>
          ∃ ro ∈ roundedOnsets st.H c, k < nHn st.H ∧
            t < (trScaleL st.H).length ∧
            (trScaleL st.H).getD t 0 = targetT st.H ro k)).card ≤
          (((roundedOnsets st.H c).map (fun ro => targetT st.H ro k)).toFinset).card := by
        apply Finset.card_le_card_of_injOn (fun t => (trScaleL st.H).getD t 0)
        · intro t htm
          rcases Finset.mem_filter.mp htm with ⟨_, ro, hro, _, _, heq⟩
          rw [List.mem_toFinset, heq]
          exact List.mem_map.mpr ⟨ro, hro, rfl⟩
        · intro t1 h1 t2 h2 heq
          have ht1 := Finset.mem_range.mp (Finset.mem_filter.mp h1).1
          have ht2 := Finset.mem_range.mp (Finset.mem_filter.mp h2).1
          exact hinj t1 ht1 t2 ht2 heq
      have hlen : (((roundedOnsets st.H c).map
          (fun ro => targetT st.H ro k)).toFinset).card ≤
          (condOnsets st.H c).length := by
        calc (((roundedOnsets st.H c).map (fun ro => targetT st.H ro k)).toFinset).card
            ≤ ((roundedOnsets st.H c).map (fun ro => targetT st.H ro k)).length :=
              List.toFinset_card_le _
          _ = (roundedOnsets st.H c).length := List.length_map _ _
          _ = (condOnsets st.H c).length := List.length_map _ _
      exact le_trans hstep hlen
    exact_mod_cast hcard
  · intro pf m
    unfold estimateHRF
    dsimp only
    by_cases h1 : m = "FIR"
    · rw [if_pos h1]
      by_cases h2 : (getFIRmodelS st).tcDim = 1
      · rw [if_pos h2]
      · rw [if_neg h2]
    · rw [if_neg h1]
      by_cases h3 : m = "average"
      · rw [if_pos h3]
        by_cases h2 : (getFIRmodelS st).tcDim = 1
        · rw [if_pos h2]
        · rw [if_neg h2]
      · rw [if_neg h3]

/-- C9 witness: the invariants instantiated on the concrete one-event
state, whose acquisition scale `[0, 1, 2, 3]` has no collisions. -/
theorem C9_design_matrix_witness :
    (∀ t k c, (getFIRmodelS stW1).model t k c = 0 ∨
      (getFIRmodelS stW1).model t k c = 1) ∧
    (∀ c < stW1.H.nconds, ∀ k,
      colSumSt (getFIRmodelS stW1) c k ≤ ((condOnsets stW1.H c).length : ℚ)) ∧
    (∀ pf m, ((estimateHRF pf (getFIRmodelS stW1) m).1).model =
      (getFIRmodelS stW1).model) :=
  C9_design_matrix_invariants stW1 gridW_TR_pos (by
    intro t1 h1 t2 h2 heq
    have h1' : t1 < 4 := h1
    have h2' : t2 < 4 := h2
    rw [show trScaleL stW1.H = [0, 1, 2, 3] from trScaleL_gridW] at heq
    interval_cases t1 <;> interval_cases t2 <;> simp_all [List.getD])

/-- C2: `estimate("FIR")` on the built design matrices succeeds; the
stored FIR estimate of condition `c` is rows `c*nHEst .. (c+1)*nHEst - 1`
of `beta = pinv(design) . tc^T`, transposed to the voxel dimensionality;
those rows never touch the intercept row; the design concatenates the
per-condition matrices in condition order (column `c*nHEst + i` is the
demeaned lag-`i` column of condition `c`), every one of its first
`nHEst*nconds` columns is demeaned, and its final column is all ones. -/
theorem C2_fir_glm_structure (st : EState) (pf : (ℕ → ℕ → ℚ) → ℕ → ℕ → ℚ)
    (c i : ℕ) (hc : c < st.H.nconds) (hi : i < nHn st.H) :
    ((estimateHRF pf (getFIRmodelS st) "FIR").2 = none) ∧
    (st.tcDim = 1 →
      (estimateHRF pf (getFIRmodelS st) "FIR").1.fir1 c =
        some fun j => beta1 pf (getFIRmodelS st) (c * nHn st.H + j)) ∧
    (st.tcDim ≠ 1 →
      (estimateHRF pf (getFIRmodelS st) "FIR").1.fir2 c =
        some fun v j => beta2 pf (getFIRmodelS st) (c * nHn st.H + j) v) ∧
    (∀ v, beta2 pf (getFIRmodelS st) (c * nHn st.H + i) v =
      ∑ t in Finset.range st.H.ntps,
        pf (designX (getFIRmodelS st)) (c * nHn st.H + i) t * st.tc2 v t) ∧
    (beta1 pf (getFIRmodelS st) (c * nHn st.H + i) =
      ∑ t in Finset.range st.H.ntps,
        pf (designX (getFIRmodelS st)) (c * nHn st.H + i) t * st.tc1 t) ∧
    (c * nHn st.H + i < nHn st.H * st.H.nconds) ∧
    (∀ t, designX (getFIRmodelS st) t (nHn st.H * st.H.nconds) = 1) ∧
    (∀ j, j < nHn st.H * st.H.nconds → ∀ t,
      designX (getFIRmodelS st) t j =
        reshapeF (getFIRmodelS st) t j - colMean (getFIRmodelS st) j) ∧
    (∀ t, designX (getFIRmodelS st) t (c * nHn st.H + i) =
      trE st.H c t i -
        (∑ u in Finset.range st.H.ntps, trE st.H c u i) / (st.H.ntps : ℚ)) := by
  have hnH : 0 < nHn st.H := lt_of_le_of_lt (Nat.zero_le i) hi
  have hbound : c * nHn st.H + i < nHn st.H * st.H.nconds := by
    calc c * nHn st.H + i < c * nHn st.H + nHn st.H := Nat.add_lt_add_left hi _
      _ = (c + 1) * nHn st.H := by ring
      _ ≤ st.H.nconds * nHn st.H :=
        Nat.mul_le_mul_right _ (Nat.succ_le_of_lt hc)
      _ = nHn st.H * st.H.nconds := Nat.mul_comm _ _
  have hmod : (c * nHn st.H + i) % nHn st.H = i := by
    rw [Nat.mul_comm, Nat.mul_add_mod, Nat.mod_eq_of_lt hi]
  have hdiv : (c * nHn st.H + i) / nHn st.H = c := by
    rw [Nat.mul_comm, Nat.mul_add_div hnH, Nat.div_eq_of_lt hi, Nat.add_zero]
  have hreshape : ∀ t, reshapeF (getFIRmodelS st) t (c * nHn st.H + i) =
      trE st.H c t i := by
    intro t
    show (getFIRmodelS st).model t ((c * nHn st.H + i) % nHn (getFIRmodelS st).H)
        ((c * nHn st.H + i) / nHn (getFIRmodelS st).H) = trE st.H c t i
    rw [show nHn (getFIRmodelS st).H = nHn st.H from rfl, hmod, hdiv]
    show (if c < st.H.nconds then trE st.H c t i else 0) = trE st.H c t i
    rw [if_pos hc]
  refine ⟨?_, ?_, ?_, fun v => rfl, rfl, hbound, ?_, ?_, ?_⟩
  · simp only [estimateHRF]
    rw [if_pos trivial]
    by_cases h2 : (getFIRmodelS st).tcDim = 1
    · rw [if_pos h2]
    · rw [if_neg h2]
  · intro hdim
    simp only [estimateHRF]
    rw [if_pos trivial, if_pos (show (getFIRmodelS st).tcDim = 1 from hdim)]
    dsimp only
    rw [if_pos (show c < (getFIRmodelS st).H.nconds from hc)]
    rfl
  · intro hdim
    simp only [estimateHRF]
    rw [if_pos trivial, if_neg (show ¬(getFIRmodelS st).tcDim = 1 from hdim)]
    dsimp only
    rw [if_pos (show c < (getFIRmodelS st).H.nconds from hc)]
    rfl
  · intro t
    simp only [designX]
    rw [if_pos (show nHn st.H * st.H.nconds =
      nHn (getFIRmodelS st).H * (getFIRmodelS st).H.nconds from rfl)]
  · intro j hj t
    simp only [designX]
    rw [if_neg (show ¬(j = nHn (getFIRmodelS st).H * (getFIRmodelS st).H.nconds)
      from Nat.ne_of_lt hj)]
  · intro t
    simp only [designX]
    rw [if_neg (show ¬(c * nHn st.H + i =
      nHn (getFIRmodelS st).H * (getFIRmodelS st).H.nconds) from Nat.ne_of_lt hbound)]
    rw [hreshape t]
    congr 1
    simp only [colMean]
    rw [Finset.sum_congr rfl fun u _ => hreshape u]
    rfl

/-- C2 witness: the FIR structure instantiated on the concrete 2-D state
with a trivial stand-in for the external pseudo-inverse. -/
theorem C2_fir_glm_witness :
    ((estimateHRF (fun _ _ _ => 0) (getFIRmodelS stW2) "FIR").2 = none) ∧
    (stW2.tcDim = 1 →
      (estimateHRF (fun _ _ _ => 0) (getFIRmodelS stW2) "FIR").1.fir1 0 =
        some fun j => beta1 (fun _ _ _ => 0) (getFIRmodelS stW2) (0 * nHn stW2.H + j)) ∧
    (stW2.tcDim ≠ 1 →
      (estimateHRF (fun _ _ _ => 0) (getFIRmodelS stW2) "FIR").1.fir2 0 =
        some fun v j => beta2 (fun _ _ _ => 0) (getFIRmodelS stW2) (0 * nHn stW2.H + j) v) ∧
    (∀ v, beta2 (fun _ _ _ => 0) (getFIRmodelS stW2) (0 * nHn stW2.H + 0) v =
      ∑ t in Finset.range stW2.H.ntps,
        (fun _ _ _ => (0 : ℚ)) (designX (getFIRmodelS stW2)) (0 * nHn stW2.H + 0) t *
          stW2.tc2 v t) ∧
    (beta1 (fun _ _ _ => 0) (getFIRmodelS stW2) (0 * nHn stW2.H + 0) =
      ∑ t in Finset.range stW2.H.ntps,
        (fun _ _ _ => (0 : ℚ)) (designX (getFIRmodelS stW2)) (0 * nHn stW2.H + 0) t *
          stW2.tc1 t) ∧
    (0 * nHn stW2.H + 0 < nHn stW2.H * stW2.H.nconds) ∧
    (∀ t, designX (getFIRmodelS stW2) t (nHn stW2.H * stW2.H.nconds) = 1) ∧
    (∀ j, j < nHn stW2.H * stW2.H.nconds → ∀ t,
      designX (getFIRmodelS stW2) t j =
        reshapeF (getFIRmodelS stW2) t j - colMean (getFIRmodelS stW2) j) ∧
    (∀ t, designX (getFIRmodelS stW2) t (0 * nHn stW2.H + 0) =
      trE stW2.H 0 t 0 -
        (∑ u in Finset.range stW2.H.ntps, trE stW2.H 0 u 0) / (stW2.H.ntps : ℚ)) :=
  C2_fir_glm_structure stW2 (fun _ _ _ => 0) 0 0 (by decide)
    (by rw [show nHn stW2.H = nHn gridW from rfl, gridW_nHn]; norm_num)

/-- C6 counterexample: `estimate("bogus")` does raise the invalid-metric
error and populates no estimate, but the estimator state is NOT unchanged:
`self.metric = metric` is assigned before the dispatch, so the state now
records the invalid metric name. -/
theorem C6_counterexample :
    (estimateHRF (fun _ _ _ => 0) stW1 "bogus").2 =
      some "Metric can only be FIR/average!" ∧
    (estimateHRF (fun _ _ _ => 0) stW1 "bogus").1.metric = some "bogus" ∧
    stW1.metric = none ∧
    (estimateHRF (fun _ _ _ => 0) stW1 "bogus").1 ≠ stW1 := by
  refine ⟨rfl, rfl, rfl, ?_⟩
  intro h
  have hm := congrArg EState.metric h
  rw [show (estimateHRF (fun _ _ _ => 0) stW1 "bogus").1.metric = some "bogus" from rfl,
    show stW1.metric = none from rfl] at hm
  exact Option.noConfusion hm

/-- C6 (amended): `estimate(metric)` raises the invalid-metric error iff
`metric` is outside `{"FIR", "average"}`; on error no response estimate is
populated and the only state change is that the stored metric name becomes
the invalid value. -/
theorem C6_invalid_metric_amended (pf : (ℕ → ℕ → ℚ) → ℕ → ℕ → ℚ)
    (st : EState) (m : String) :
    (((estimateHRF pf st m).2).isSome ↔ (m ≠ "FIR" ∧ m ≠ "average")) ∧
    (m ≠ "FIR" → m ≠ "average" →
      (estimateHRF pf st m).1 = { st with metric := some m } ∧
      (estimateHRF pf st m).2 = some "Metric can only be FIR/average!") := by
  unfold estimateHRF
  by_cases h1 : m = "FIR"
  · rw [if_pos h1]
    refine ⟨?_, fun hf _ => absurd h1 hf⟩
    by_cases h2 : st.tcDim = 1
    · rw [if_pos h2]
      simp [h1]
    · rw [if_neg h2]
      simp [h1]
  · rw [if_neg h1]
    by_cases h3 : m = "average"
    · rw [if_pos h3]
      refine ⟨?_, fun _ ha => absurd h3 ha⟩
      by_cases h2 : st.tcDim = 1
      · rw [if_pos h2]
        simp [h3]
      · rw [if_neg h2]
        simp [h3]
    · rw [if_neg h3]
      exact ⟨by simp [h1, h3], fun _ _ => ⟨rfl, rfl⟩⟩

/-- C6 witness: the amended statement instantiated at the invalid metric
name `bogus` on the concrete state. -/
theorem C6_invalid_metric_witness :
    (((estimateHRF (fun _ _ _ => 0) stW1 "bogus").2).isSome ↔
      ("bogus" ≠ "FIR" ∧ "bogus" ≠ "average")) ∧
    ("bogus" ≠ "FIR" → "bogus" ≠ "average" →
      (estimateHRF (fun _ _ _ => 0) stW1 "bogus").1 =
        { stW1 with metric := some "bogus" } ∧
      (estimateHRF (fun _ _ _ => 0) stW1 "bogus").2 =
        some "Metric can only be FIR/average!") :=
  C6_invalid_metric_amended (fun _ _ _ => 0) stW1 "bogus"

/-! Lemmas about the IEEE-special-value scalars of the averaging path. -/

theorem Fadd_nan_left (x : F) : F.add F.nan x = F.nan := by cases x <;> rfl

theorem Fadd_nan_right (x : F) : F.add x F.nan = F.nan := by cases x <;> rfl

theorem Fsub_nan_right (x : F) : F.sub x F.nan = F.nan := by cases x <;> rfl

theorem Fdiv_nan_left (x : F) : F.div F.nan x = F.nan := by cases x <;> rfl

theorem Fdiv_fin_fin {a b : ℚ} (hb : b ≠ 0) :
    F.div (F.fin a) (F.fin b) = F.fin (a / b) := by
  simp [F.div, hb]

theorem Fdiv_zero_zero : F.div (F.fin 0) (F.fin 0) = F.nan := by
  simp [F.div]

theorem Fsub_fin_fin (a b : ℚ) : F.sub (F.fin a) (F.fin b) = F.fin (a - b) := rfl

theorem foldl_add_nan (l : List F) : l.foldl F.add F.nan = F.nan := by
  induction l with
  | nil => rfl
  | cons a l ih =>
    show (l.foldl F.add (F.add F.nan a)) = F.nan
    rw [Fadd_nan_left]
    exact ih

theorem Fsum_nan_mem {l : List F} (h : F.nan ∈ l) : Fsum l = F.nan := by
  unfold Fsum
  generalize F.fin 0 = acc
  induction l generalizing acc with
  | nil => cases h
  | cons a l ih =>
    rcases List.mem_cons.mp h with ha | hl
    · show (l.foldl F.add (F.add acc a)) = F.nan
      rw [← ha, Fadd_nan_right]
      exact foldl_add_nan l
    · exact ih hl _

theorem foldl_add_fin (l : List ℕ) (g : ℕ → ℚ) (s : ℚ) :
    ((l.map fun k => F.fin (g k)).foldl F.add (F.fin s)) =
      F.fin (s + (l.map g).sum) := by
  induction l generalizing s with
  | nil => simp
  | cons a l ih =>
    show ((l.map fun k => F.fin (g k)).foldl F.add (F.add (F.fin s) (F.fin (g a)))) = _
    rw [show F.add (F.fin s) (F.fin (g a)) = F.fin (s + g a) from rfl, ih]
    simp [add_assoc]

theorem Fsum_of_fin (l : List ℕ) (f : ℕ → F) (g : ℕ → ℚ)
    (h : ∀ k ∈ l, f k = F.fin (g k)) :
    Fsum (l.map f) = F.fin ((l.map g).sum) := by
  unfold Fsum
  rw [List.map_congr_left h, foldl_add_fin l g 0, zero_add]

theorem tscale_length_eq_nHn {ntps : ℕ} {tbl : EventTable} {TR : ℚ}
    {er : Option ℚ} {w0 w1 : ℚ} {H : Hrf}
    (hok : mkHrf ntps tbl TR er w0 w1 = Except.ok H) (hE : 0 < H.ER) :
    H.tscale.length = nHn H := by
  obtain ⟨ER, hc, rfl⟩ := mkHrf_ok hok
  exact mkGrid_tscale_length ntps tbl TR ER w0 w1 hE

theorem prestimIdx_lt_nHn {ntps : ℕ} {tbl : EventTable} {TR : ℚ}
    {er : Option ℚ} {w0 w1 : ℚ} {H : Hrf}
    (hok : mkHrf ntps tbl TR er w0 w1 = Except.ok H) (hE : 0 < H.ER) :
    ∀ j ∈ prestimIdx H, j < nHn H := by
  intro j hj
  have hr := (List.mem_filter.mp hj).1
  rw [List.mem_range, tscale_length_eq_nHn hok hE] at hr
  exact hr

/-- C3: `estimate("average")` succeeds, stores for each condition the
per-lag weighted average `mean_hrf = tc . model / column_sums(model)` minus
the pre-stimulus baseline, where the baseline is the mean of `mean_hrf`
over the lags with `tscale < 0`; for a 1-D timecourse a single scalar
baseline is subtracted, for a 2-D timecourse the baseline is computed per
voxel and subtracted from every lag of that voxel.  Stated under
nondegeneracy (no zero column sum among the first `nHEst` lags and at
least one pre-stimulus lag), where the IEEE arithmetic of the source
reduces to exact rational arithmetic. -/
theorem C3_average_path (ntps0 : ℕ) (tbl : EventTable) (TR : ℚ)
    (er : Option ℚ) (w0 w1 : ℚ) (st : EState)
    (pf : (ℕ → ℕ → ℚ) → ℕ → ℕ → ℚ) (c : ℕ)
    (hok : mkHrf ntps0 tbl TR er w0 w1 = Except.ok st.H) (hE : 0 < st.H.ER)
    (hc : c < st.H.nconds)
    (hcols : ∀ k < nHn st.H, colSumSt (getFIRmodelS st) c k ≠ 0)
    (hpre : prestimIdx st.H ≠ []) :
    ((estimateHRF pf (getFIRmodelS st) "average").2 = none) ∧
    (st.tcDim = 1 →
      (estimateHRF pf (getFIRmodelS st) "average").1.avg1 c =
        some (avg1fun (getFIRmodelS st) c) ∧
      ∀ k < nHn st.H, avg1fun (getFIRmodelS st) c k =
        F.fin (dotTc1 (getFIRmodelS st) c k / colSumSt (getFIRmodelS st) c k -
          ((prestimIdx st.H).map fun j =>
            dotTc1 (getFIRmodelS st) c j / colSumSt (getFIRmodelS st) c j).sum /
            ((prestimIdx st.H).length : ℚ))) ∧
    (st.tcDim ≠ 1 →
      (estimateHRF pf (getFIRmodelS st) "average").1.avg2 c =
        some (avg2fun (getFIRmodelS st) c) ∧
      ∀ v, ∀ k < nHn st.H, avg2fun (getFIRmodelS st) c v k =
        F.fin (dotTc2 (getFIRmodelS st) c v k / colSumSt (getFIRmodelS st) c k -
          ((prestimIdx st.H).map fun j =>
            dotTc2 (getFIRmodelS st) c v j / colSumSt (getFIRmodelS st) c j).sum /
            ((prestimIdx st.H).length : ℚ))) := by
  have hprek : ∀ j ∈ prestimIdx st.H, j < nHn st.H := prestimIdx_lt_nHn hok hE
  have hlenq : ((prestimIdx st.H).length : ℚ) ≠ 0 := by
    have : (prestimIdx st.H).length ≠ 0 :=
      fun h0 => hpre (List.eq_nil_of_length_eq_zero h0)
    exact_mod_cast this
  have hmean1 : ∀ k, k < nHn st.H → meanHrf1 (getFIRmodelS st) c k =
      F.fin (dotTc1 (getFIRmodelS st) c k / colSumSt (getFIRmodelS st) c k) :=
    fun k hk => Fdiv_fin_fin (hcols k hk)
  have hmean2 : ∀ v k, k < nHn st.H → meanHrf2 (getFIRmodelS st) c v k =
      F.fin (dotTc2 (getFIRmodelS st) c v k / colSumSt (getFIRmodelS st) c k) :=
    fun v k hk => Fdiv_fin_fin (hcols k hk)
  have hbase1 : baseline1 (getFIRmodelS st) c =
      F.fin (((prestimIdx st.H).map fun j =>
        dotTc1 (getFIRmodelS st) c j / colSumSt (getFIRmodelS st) c j).sum /
        ((prestimIdx st.H).length : ℚ)) := by
    unfold baseline1
    rw [show prestimIdx (getFIRmodelS st).H = prestimIdx st.H from rfl]
    rw [Fsum_of_fin (prestimIdx st.H) (meanHrf1 (getFIRmodelS st) c)
      (fun j => dotTc1 (getFIRmodelS st) c j / colSumSt (getFIRmodelS st) c j)
      (fun j hj => hmean1 j (hprek j hj))]
    exact Fdiv_fin_fin hlenq
  have hbase2 : ∀ v, baseline2 (getFIRmodelS st) c v =
      F.fin (((prestimIdx st.H).map fun j =>
        dotTc2 (getFIRmodelS st) c v j / colSumSt (getFIRmodelS st) c j).sum /
        ((prestimIdx st.H).length : ℚ)) := by
    intro v
    unfold baseline2
    rw [show prestimIdx (getFIRmodelS st).H = prestimIdx st.H from rfl]
    rw [Fsum_of_fin (prestimIdx st.H) (meanHrf2 (getFIRmodelS st) c v)
      (fun j => dotTc2 (getFIRmodelS st) c v j / colSumSt (getFIRmodelS st) c j)
      (fun j hj => hmean2 v j (hprek j hj))]
    exact Fdiv_fin_fin hlenq
  refine ⟨?_, ?_, ?_⟩
  · simp only [estimateHRF]
    rw [if_neg (by decide : ¬("average" = "FIR")), if_pos trivial]
    by_cases h2 : (getFIRmodelS st).tcDim = 1
    · rw [if_pos h2]
    · rw [if_neg h2]
  · intro hdim
    constructor
    · simp only [estimateHRF]
      rw [if_neg (by decide : ¬("average" = "FIR")), if_pos trivial,
        if_pos (show (getFIRmodelS st).tcDim = 1 from hdim)]
      dsimp only
      rw [if_pos (show c < (getFIRmodelS st).H.nconds from hc)]
    · intro k hk
      unfold avg1fun
      rw [hmean1 k hk, hbase1, Fsub_fin_fin]
  · intro hdim
    constructor
    · simp only [estimateHRF]
      rw [if_neg (by decide : ¬("average" = "FIR")), if_pos trivial,
        if_neg (show ¬(getFIRmodelS st).tcDim = 1 from hdim)]
      dsimp only
      rw [if_pos (show c < (getFIRmodelS st).H.nconds from hc)]
    · intro v k hk
      unfold avg2fun
      rw [hmean2 v k hk, hbase2 v, Fsub_fin_fin]

/-- C3 witness: the averaging path instantiated on the concrete one-event
1-D state, where every column sum is 1 and lag 0 is pre-stimulus. -/
theorem C3_average_path_witness :
    ((estimateHRF (fun _ _ _ => 0) (getFIRmodelS stW1) "average").2 = none) ∧
    (stW1.tcDim = 1 →
      (estimateHRF (fun _ _ _ => 0) (getFIRmodelS stW1) "average").1.avg1 0 =
        some (avg1fun (getFIRmodelS stW1) 0) ∧
      ∀ k < nHn stW1.H, avg1fun (getFIRmodelS stW1) 0 k =
        F.fin (dotTc1 (getFIRmodelS stW1) 0 k / colSumSt (getFIRmodelS stW1) 0 k -
          ((prestimIdx stW1.H).map fun j =>
            dotTc1 (getFIRmodelS stW1) 0 j / colSumSt (getFIRmodelS stW1) 0 j).sum /
            ((prestimIdx stW1.H).length : ℚ))) ∧
    (stW1.tcDim ≠ 1 →
      (estimateHRF (fun _ _ _ => 0) (getFIRmodelS stW1) "average").1.avg2 0 =
        some (avg2fun (getFIRmodelS stW1) 0) ∧
      ∀ v, ∀ k < nHn stW1.H, avg2fun (getFIRmodelS stW1) 0 v k =
        F.fin (dotTc2 (getFIRmodelS stW1) 0 v k / colSumSt (getFIRmodelS stW1) 0 k -
          ((prestimIdx stW1.H).map fun j =>
            dotTc2 (getFIRmodelS stW1) 0 v j / colSumSt (getFIRmodelS stW1) 0 j).sum /
            ((prestimIdx stW1.H).length : ℚ))) :=
  C3_average_path 4 tblW 1 none (-2) 2 stW1 (fun _ _ _ => 0) 0 rfl gridW_ER_pos
    (by decide)
    (by
      intro k hk
      have hk4 : k < 4 := by
        rw [show nHn stW1.H = nHn gridW from rfl, gridW_nHn] at hk
        exact hk
      rw [show colSumSt (getFIRmodelS stW1) 0 k = colSumSt stW1 0 k from rfl,
        stW1_colSum k hk4]
      norm_num)
    (by
      rw [show prestimIdx stW1.H = prestimIdx gridW from rfl, prestim_gridW]
      simp)

/-- C10: in `estimate("average")` the division by the design-matrix column
sums is unguarded.  For a condition with a lag whose column sums to zero
(in particular a condition with zero events) the call raises no error, the
stored estimate at that lag is NaN (`0/0`), and whenever such a lag is
pre-stimulus (`tscale < 0`) the NaN propagates through the baseline into
every lag of the stored estimate. -/
theorem C10_average_division_unguarded (ntps0 : ℕ) (tbl : EventTable) (TR : ℚ)
    (er : Option ℚ) (w0 w1 : ℚ) (st : EState)
    (pf : (ℕ → ℕ → ℚ) → ℕ → ℕ → ℚ) (c k : ℕ)
    (hok : mkHrf ntps0 tbl TR er w0 w1 = Except.ok st.H) (hE : 0 < st.H.ER)
    (hc : c < st.H.nconds) (hk : k < nHn st.H)
    (hcz : colSumSt (getFIRmodelS st) c k = 0) :
    ((estimateHRF pf (getFIRmodelS st) "average").2 = none) ∧
    (meanHrf1 (getFIRmodelS st) c k = F.nan) ∧
    (∀ v, meanHrf2 (getFIRmodelS st) c v k = F.nan) ∧
    (st.tcDim = 1 →
      (estimateHRF pf (getFIRmodelS st) "average").1.avg1 c =
        some (avg1fun (getFIRmodelS st) c) ∧
      avg1fun (getFIRmodelS st) c k = F.nan ∧
      (st.H.tscale.getD k 0 < 0 →
        ∀ k2, avg1fun (getFIRmodelS st) c k2 = F.nan)) ∧
    (st.tcDim ≠ 1 →
      (estimateHRF pf (getFIRmodelS st) "average").1.avg2 c =
        some (avg2fun (getFIRmodelS st) c) ∧
      (∀ v, avg2fun (getFIRmodelS st) c v k = F.nan) ∧
      (st.H.tscale.getD k 0 < 0 →
        ∀ v k2, avg2fun (getFIRmodelS st) c v k2 = F.nan)) := by
  have hentry : ∀ t ∈ Finset.range st.H.ntps, (getFIRmodelS st).model t k c = 0 := by
    have hnonneg : ∀ t ∈ Finset.range st.H.ntps,
        0 ≤ (getFIRmodelS st).model t k c := by
      intro t _
      show 0 ≤ (if c < st.H.nconds then trE st.H c t k else 0)
      by_cases h : c < st.H.nconds
      · rw [if_pos h]
        rcases trE_zero_or_one st.H c t k with h0 | h1
        · rw [h0]
        · rw [h1]
          norm_num
      · rw [if_neg h]
    exact (Finset.sum_eq_zero_iff_of_nonneg hnonneg).mp hcz
  have hdot1 : dotTc1 (getFIRmodelS st) c k = 0 := by
    unfold dotTc1
    apply Finset.sum_eq_zero
    intro t htm
    rw [show (getFIRmodelS st).tc1 = st.tc1 from rfl, hentry t htm, mul_zero]
  have hdot2 : ∀ v, dotTc2 (getFIRmodelS st) c v k = 0 := by
    intro v
    unfold dotTc2
    apply Finset.sum_eq_zero
    intro t htm
    rw [show (getFIRmodelS st).tc2 = st.tc2 from rfl, hentry t htm, mul_zero]
  have hm1 : meanHrf1 (getFIRmodelS st) c k = F.nan := by
    unfold meanHrf1
    rw [hdot1, hcz]
    exact Fdiv_zero_zero
  have hm2 : ∀ v, meanHrf2 (getFIRmodelS st) c v k = F.nan := by
    intro v
    unfold meanHrf2
    rw [hdot2 v, hcz]
    exact Fdiv_zero_zero
  have hkmem : st.H.tscale.getD k 0 < 0 → k ∈ prestimIdx st.H := by
    intro hneg
    apply List.mem_filter.mpr
    constructor
    · rw [List.mem_range, tscale_length_eq_nHn hok hE]
      exact hk
    · exact decide_eq_true hneg
  have hbase1nan : st.H.tscale.getD k 0 < 0 →
      baseline1 (getFIRmodelS st) c = F.nan := by
    intro hneg
    unfold baseline1
    rw [show prestimIdx (getFIRmodelS st).H = prestimIdx st.H from rfl]
    rw [Fsum_nan_mem (List.mem_map.mpr ⟨k, hkmem hneg, hm1⟩)]
    exact Fdiv_nan_left _
  have hbase2nan : st.H.tscale.getD k 0 < 0 →
      ∀ v, baseline2 (getFIRmodelS st) c v = F.nan := by
    intro hneg v
    unfold baseline2
    rw [show prestimIdx (getFIRmodelS st).H = prestimIdx st.H from rfl]
    rw [Fsum_nan_mem (List.mem_map.mpr ⟨k, hkmem hneg, hm2 v⟩)]
    exact Fdiv_nan_left _
  refine ⟨?_, hm1, hm2, ?_, ?_⟩
  · simp only [estimateHRF]
    rw [if_neg (by decide : ¬("average" = "FIR")), if_pos trivial]
    by_cases h2 : (getFIRmodelS st).tcDim = 1
    · rw [if_pos h2]
    · rw [if_neg h2]
  · intro hdim
    refine ⟨?_, ?_, ?_⟩
    · simp only [estimateHRF]
      rw [if_neg (by decide : ¬("average" = "FIR")), if_pos trivial,
        if_pos (show (getFIRmodelS st).tcDim = 1 from hdim)]
      dsimp only
      rw [if_pos (show c < (getFIRmodelS st).H.nconds from hc)]
    · unfold avg1fun
      rw [hm1]
      cases baseline1 (getFIRmodelS st) c <;> rfl
    · intro hneg k2
      unfold avg1fun
      rw [hbase1nan hneg]
      exact Fsub_nan_right _
  · intro hdim
    refine ⟨?_, ?_, ?_⟩
    · simp only [estimateHRF]
      rw [if_neg (by decide : ¬("average" = "FIR")), if_pos trivial,
        if_neg (show ¬(getFIRmodelS st).tcDim = 1 from hdim)]
      dsimp only
      rw [if_pos (show c < (getFIRmodelS st).H.nconds from hc)]
    · intro v
      unfold avg2fun
      rw [hm2 v]
      cases baseline2 (getFIRmodelS st) c v <;> rfl
    · intro hneg v k2
      unfold avg2fun
      rw [hbase2nan hneg v]
      exact Fsub_nan_right _

/-- C10 witness: the one-event instance at onset 1 whose lag-0 column is
all zero and pre-stimulus, so the whole stored average estimate is NaN. -/
theorem C10_average_division_witness :
    ((estimateHRF (fun _ _ _ => 0) (getFIRmodelS stB1) "average").2 = none) ∧
    (meanHrf1 (getFIRmodelS stB1) 0 0 = F.nan) ∧
    (∀ v, meanHrf2 (getFIRmodelS stB1) 0 v 0 = F.nan) ∧
    (stB1.tcDim = 1 →
      (estimateHRF (fun _ _ _ => 0) (getFIRmodelS stB1) "average").1.avg1 0 =
        some (avg1fun (getFIRmodelS stB1) 0) ∧
      avg1fun (getFIRmodelS stB1) 0 0 = F.nan ∧
      (stB1.H.tscale.getD 0 0 < 0 →
        ∀ k2, avg1fun (getFIRmodelS stB1) 0 k2 = F.nan)) ∧
    (stB1.tcDim ≠ 1 →
      (estimateHRF (fun _ _ _ => 0) (getFIRmodelS stB1) "average").1.avg2 0 =
        some (avg2fun (getFIRmodelS stB1) 0) ∧
      (∀ v, avg2fun (getFIRmodelS stB1) 0 v 0 = F.nan) ∧
      (stB1.H.tscale.getD 0 0 < 0 →
        ∀ v k2, avg2fun (getFIRmodelS stB1) 0 v k2 = F.nan)) :=
  C10_average_division_unguarded 4 tblB 1 none (-2) 2 stB1 (fun _ _ _ => 0) 0 0 rfl
    (by exact gridW_ER_pos) (by decide)
    (by rw [show nHn stB1.H = nHn gridB from rfl, gridB_nHn]; norm_num)
    (by exact stB1_colSum_zero)

end Hrfv
